import Mathlib

/-!
Verification development for the pqtorus elliptic-function core.

The Kotlin/JVM sources are shallowly embedded over exact rationals:

* `Cplx` embeds the complex-number type used throughout
  (`org.hipparchus.complex.Complex` and the common `Complex` class);
  `Double` arithmetic is idealised as exact `ℚ` arithmetic.
* Calls into external numerical routines that compute transcendental
  values (the real-argument Jacobi elliptic routine of Hipparchus, real
  square roots, the constant pi, and the theta constants at a given tau)
  are modelled as explicit parameters or oracle records; theorems carry
  the defining properties of those values as hypotheses.
* Magnitude comparisons `z.abs() < t` on complex values are embedded as
  `z.absSq < t^2`, which is equivalent for nonnegative `t`.
-/

/-- Complex numbers with rational coordinates, embedding the repository's
complex value type (ordered pair of doubles with field operations). -/
structure Cplx where
  re : ℚ
  im : ℚ
deriving DecidableEq, Repr

namespace Cplx

theorem ext {z w : Cplx} (h1 : z.re = w.re) (h2 : z.im = w.im) : z = w := by
  cases z
  cases w
  cases h1
  cases h2
  rfl

/-- Embeds `Complex(a, 0.0)`: a real constant as a complex value. -/
def ofQ (a : ℚ) : Cplx := ⟨a, 0⟩

/-- Embeds `z.multiply(a)` for a real (double) factor `a`. -/
def smulQ (a : ℚ) (z : Cplx) : Cplx := ⟨a * z.re, a * z.im⟩

/-- Squared magnitude; `z.abs() < t` is embedded as `z.absSq < t^2`. -/
def absSq (z : Cplx) : ℚ := z.re ^ 2 + z.im ^ 2

instance : Zero Cplx := ⟨⟨0, 0⟩⟩
instance : One Cplx := ⟨⟨1, 0⟩⟩
instance : Add Cplx := ⟨fun z w => ⟨z.re + w.re, z.im + w.im⟩⟩
instance : Neg Cplx := ⟨fun z => ⟨-z.re, -z.im⟩⟩
instance : Sub Cplx := ⟨fun z w => ⟨z.re - w.re, z.im - w.im⟩⟩
instance : Mul Cplx := ⟨fun z w => ⟨z.re * w.re - z.im * w.im, z.re * w.im + z.im * w.re⟩⟩
instance : Inv Cplx := ⟨fun z => ⟨z.re / (z.re ^ 2 + z.im ^ 2), -z.im / (z.re ^ 2 + z.im ^ 2)⟩⟩

@[simp] theorem zero_re : (0 : Cplx).re = 0 := rfl
@[simp] theorem zero_im : (0 : Cplx).im = 0 := rfl
@[simp] theorem one_re : (1 : Cplx).re = 1 := rfl
@[simp] theorem one_im : (1 : Cplx).im = 0 := rfl
@[simp] theorem add_re (z w : Cplx) : (z + w).re = z.re + w.re := rfl
@[simp] theorem add_im (z w : Cplx) : (z + w).im = z.im + w.im := rfl
@[simp] theorem neg_re (z : Cplx) : (-z).re = -z.re := rfl
@[simp] theorem neg_im (z : Cplx) : (-z).im = -z.im := rfl
@[simp] theorem sub_re (z w : Cplx) : (z - w).re = z.re - w.re := rfl
@[simp] theorem sub_im (z w : Cplx) : (z - w).im = z.im - w.im := rfl
@[simp] theorem mul_re (z w : Cplx) : (z * w).re = z.re * w.re - z.im * w.im := rfl
@[simp] theorem mul_im (z w : Cplx) : (z * w).im = z.re * w.im + z.im * w.re := rfl
@[simp] theorem inv_re (z : Cplx) : z⁻¹.re = z.re / (z.re ^ 2 + z.im ^ 2) := rfl
@[simp] theorem inv_im (z : Cplx) : z⁻¹.im = -z.im / (z.re ^ 2 + z.im ^ 2) := rfl
@[simp] theorem ofQ_re (a : ℚ) : (ofQ a).re = a := rfl
@[simp] theorem ofQ_im (a : ℚ) : (ofQ a).im = 0 := rfl
@[simp] theorem smulQ_re (a : ℚ) (z : Cplx) : (smulQ a z).re = a * z.re := rfl
@[simp] theorem smulQ_im (a : ℚ) (z : Cplx) : (smulQ a z).im = a * z.im := rfl

instance instCommRing : CommRing Cplx where
  add_assoc a b c := by apply ext <;> simp <;> ring
  zero_add a := by apply ext <;> simp
  add_zero a := by apply ext <;> simp
  add_comm a b := by apply ext <;> simp <;> ring
  neg_add_cancel a := by apply ext <;> simp
  mul_assoc a b c := by apply ext <;> simp <;> ring
  one_mul a := by apply ext <;> simp
  mul_one a := by apply ext <;> simp
  left_distrib a b c := by apply ext <;> simp <;> ring
  right_distrib a b c := by apply ext <;> simp <;> ring
  mul_comm a b := by apply ext <;> simp <;> ring
  zero_mul a := by apply ext <;> simp
  mul_zero a := by apply ext <;> simp
  sub_eq_add_neg a b := by apply ext <;> simp <;> ring
  nsmul := nsmulRec
  zsmul := zsmulRec

theorem normSq_eq_zero_iff {z : Cplx} : z.re ^ 2 + z.im ^ 2 = 0 ↔ z = 0 := by
  constructor
  · intro h
    have h1 : z.re = 0 ∧ z.im = 0 := by
      constructor <;> nlinarith [sq_nonneg z.re, sq_nonneg z.im]
    exact ext h1.1 h1.2
  · intro h
    subst h
    simp

instance instField : Field Cplx where
  exists_pair_ne := ⟨0, 1, by intro h; exact one_ne_zero (congrArg Cplx.re h).symm⟩
  mul_inv_cancel z hz := by
    have hn : z.re ^ 2 + z.im ^ 2 ≠ 0 := fun h => hz (normSq_eq_zero_iff.mp h)
    apply ext <;> simp <;> field_simp <;> ring
  inv_zero := by apply ext <;> simp
  qsmul := _
  nnqsmul := _

@[simp] theorem ofQ_zero : ofQ 0 = 0 := rfl
@[simp] theorem ofQ_one : ofQ 1 = 1 := rfl

theorem ofQ_add (a b : ℚ) : ofQ (a + b) = ofQ a + ofQ b := by apply ext <;> simp

theorem ofQ_mul (a b : ℚ) : ofQ (a * b) = ofQ a * ofQ b := by apply ext <;> simp

theorem ofQ_neg (a : ℚ) : ofQ (-a) = -ofQ a := by apply ext <;> simp

theorem ofQ_sub (a b : ℚ) : ofQ (a - b) = ofQ a - ofQ b := by apply ext <;> simp

theorem ofQ_pow (a : ℚ) (n : ℕ) : ofQ (a ^ n) = ofQ a ^ n := by
  induction n with
  | zero => rfl
  | succ k ih => rw [pow_succ, pow_succ, ofQ_mul, ih]

theorem smulQ_eq_ofQ_mul (a : ℚ) (z : Cplx) : smulQ a z = ofQ a * z := by
  apply ext <;> simp

theorem smulQ_neg_arg (a : ℚ) (z : Cplx) : smulQ a (-z) = -(smulQ a z) := by
  apply ext <;> simp

theorem absSq_neg (z : Cplx) : (-z).absSq = z.absSq := by
  simp [absSq]

theorem absSq_eq_zero_iff {z : Cplx} : z.absSq = 0 ↔ z = 0 := by
  simpa [absSq] using normSq_eq_zero_iff (z := z)

/-- Componentwise division of a complex numerator by a real denominator
(the form used in the Jacobi addition formulas) agrees with complex
division by that real value. -/
theorem div_ofQ (a b d : ℚ) : (⟨a / d, b / d⟩ : Cplx) = (⟨a, b⟩ : Cplx) / ofQ d := by
  rcases eq_or_ne d 0 with h | h
  · subst h
    apply ext <;>
      simp only [div_eq_mul_inv, mul_re, mul_im, inv_re, inv_im, ofQ_re, ofQ_im] <;> simp
  · apply ext <;>
      simp only [div_eq_mul_inv, mul_re, mul_im, inv_re, inv_im, ofQ_re, ofQ_im] <;>
      field_simp <;> ring

end Cplx

/-- Oracle for the external real-argument Jacobi elliptic routine
(`JacobiEllipticBuilder.build(m).valuesN(u)` from Hipparchus): `sn u m`,
`cn u m`, `dn u m` are the real values sn(u|m), cn(u|m), dn(u|m).
The repository delegates the real case to this library and assumes it
correct; theorems state the needed identities as hypotheses. -/
structure JacobiOracle where
  sn : ℚ → ℚ → ℚ
  cn : ℚ → ℚ → ℚ
  dn : ℚ → ℚ → ℚ

namespace Jacobi

/-- Embeds `Jacobi.snComplex(u, m)`.  The parameter `kPrime` stands for
the value `sqrt(mPrime)` computed inside the source function (`mPrime =
1 - m`); theorems that depend on it carry `kPrime^2 = 1 - m` as a
hypothesis.  The real-case guard `abs(u2) < 1e-15` and the addition
formula are taken verbatim from the source. -/
def snComplex (J : JacobiOracle) (kPrime : ℚ) (u : Cplx) (m : ℚ) : Cplx :=
  if |u.im| < (1e-15 : ℚ) then ⟨J.sn u.re m, 0⟩
  else
    let mPrime := 1 - m
    let u2t := u.im * kPrime
    let s1 := J.sn u.re m
    let c1 := J.cn u.re m
    let d1 := J.dn u.re m
    let s2 := J.sn u2t mPrime
    let c2 := J.cn u2t mPrime
    let d2 := J.dn u2t mPrime
    let den := c2 * c2 + m * s1 * s1 * s2 * s2
    ⟨s1 * d2 / den, c1 * d1 * s2 * c2 / den⟩

/-- Embeds `Jacobi.cnComplex(u, m)`; see `snComplex` for the conventions. -/
def cnComplex (J : JacobiOracle) (kPrime : ℚ) (u : Cplx) (m : ℚ) : Cplx :=
  if |u.im| < (1e-15 : ℚ) then ⟨J.cn u.re m, 0⟩
  else
    let mPrime := 1 - m
    let u2t := u.im * kPrime
    let s1 := J.sn u.re m
    let c1 := J.cn u.re m
    let d1 := J.dn u.re m
    let s2 := J.sn u2t mPrime
    let c2 := J.cn u2t mPrime
    let d2 := J.dn u2t mPrime
    let den := c2 * c2 + m * s1 * s1 * s2 * s2
    ⟨c1 * c2 / den, -(s1 * d1 * s2 * d2) / den⟩

/-- Embeds `Jacobi.dnComplex(u, m)`; see `snComplex` for the conventions. -/
def dnComplex (J : JacobiOracle) (kPrime : ℚ) (u : Cplx) (m : ℚ) : Cplx :=
  if |u.im| < (1e-15 : ℚ) then ⟨J.dn u.re m, 0⟩
  else
    let mPrime := 1 - m
    let u2t := u.im * kPrime
    let s1 := J.sn u.re m
    let c1 := J.cn u.re m
    let d1 := J.dn u.re m
    let s2 := J.sn u2t mPrime
    let c2 := J.cn u2t mPrime
    let d2 := J.dn u2t mPrime
    let den := c2 * c2 + m * s1 * s1 * s2 * s2
    ⟨d1 * c2 * d2 / den, -(m * s1 * c1 * s2) / den⟩

/-- Embeds `Jacobi.snSafe(u, m)` with its default `epsilon = 1e-12`:
if `|snComplex(u,m)| < epsilon` the argument is perturbed by
`Complex(epsilon, epsilon)` and sn is recomputed; the magnitude test is
embedded as `absSq < epsilon^2`. -/
def snSafe (J : JacobiOracle) (kPrime : ℚ) (u : Cplx) (m : ℚ) : Cplx :=
  let sn := snComplex J kPrime u m
  if sn.absSq < (1e-12 : ℚ) ^ 2 then
    snComplex J kPrime (u + ⟨1e-12, 1e-12⟩) m
  else sn

end Jacobi

/-- Embeds `Weierstrass.LatticeInvariants`. -/
structure LatticeInvariants where
  e1 : ℚ
  e2 : ℚ
  e3 : ℚ
  m : ℚ
  scale : ℚ
  g2 : ℚ
  g3 : ℚ
deriving DecidableEq, Repr

namespace Weierstrass

/-- Embeds `Weierstrass.computeInvariants(p, q)`.  The call
`Theta.thetaConstants(p, q)` returns the three theta constants at
`tau = i*(q/p)`; for the rectangular lattice these are real, and they are
passed here as the parameters `theta2`, `theta3`, `theta4` (so `q` is
unused below exactly as the source uses `q` only through the theta
computation).  The parameter `piA` stands for the double constant `PI`. -/
def computeInvariants (theta2 theta3 theta4 piA p q : ℚ) : LatticeInvariants :=
  let scale := piA / (2 * p)
  let scale2 := scale * scale
  let theta2_4 := theta2 ^ 4
  let theta3_4 := theta3 ^ 4
  let theta4_4 := theta4 ^ 4
  let e1 := scale2 * (theta3_4 + theta4_4) / 3
  let e2 := scale2 * (theta2_4 - theta4_4) / 3
  let e3 := -e1 - e2
  let m := (e2 - e3) / (e1 - e3)
  let g2 := 4 * (e1 * e2 + e2 * e3 + e3 * e1)
  let g3 := 4 * e1 * e2 * e3
  ⟨e1, e2, e3, m, scale, g2, g3⟩

/-- Embeds `Weierstrass.wp(z, p, q)`.  The source first computes
`invariants = computeInvariants(p, q)` and
`sqrtE1MinusE3 = sqrt(invariants.e1 - invariants.e3)`; the embedding
receives the invariants record `inv` and that square root `sqrtA`
(with `sqrtA^2 = inv.e1 - inv.e3` as a theorem hypothesis) as
parameters, together with the Jacobi oracle data. -/
def wp (J : JacobiOracle) (kPrime : ℚ) (inv : LatticeInvariants) (sqrtA : ℚ)
    (z : Cplx) : Cplx :=
  let U := Cplx.smulQ sqrtA z
  let sn := Jacobi.snSafe J kPrime U inv.m
  let sn2 := sn * sn
  Cplx.ofQ inv.e3 + Cplx.ofQ (inv.e1 - inv.e3) / sn2

/-- Embeds `Weierstrass.wpPrime(z, p, q)`; same conventions as `wp`.
The source's `(e1 - e3).pow(1.5)` is `sqrtA^3` for
`sqrtA = sqrt(e1 - e3) >= 0`. -/
def wpPrime (J : JacobiOracle) (kPrime : ℚ) (inv : LatticeInvariants) (sqrtA : ℚ)
    (z : Cplx) : Cplx :=
  let U := Cplx.smulQ sqrtA z
  let sn := Jacobi.snComplex J kPrime U inv.m
  let cn := Jacobi.cnComplex J kPrime U inv.m
  let dn := Jacobi.dnComplex J kPrime U inv.m
  let sn3 :=
    if sn.absSq < (1e-12 : ℚ) ^ 2 then
      (Jacobi.snComplex J kPrime (U + ⟨1e-12, 1e-12⟩) inv.m) ^ 3
    else sn ^ 3
  cn * dn * Cplx.ofQ (-2 * sqrtA ^ 3) / sn3

/-- Embeds `Weierstrass.verifyDifferentialEquation(z, p, q)`: returns
`(wpPrime)^2 - (4*wp^3 - g2*wp - g3)` where `g2`, `g3` come from the
same invariants record. -/
def verifyDifferentialEquation (J : JacobiOracle) (kPrime : ℚ)
    (inv : LatticeInvariants) (sqrtA : ℚ) (z : Cplx) : Cplx :=
  let wpv := wp J kPrime inv sqrtA z
  let wppv := wpPrime J kPrime inv sqrtA z
  let lhs := wppv * wppv
  let rhs := Cplx.smulQ 4 (wpv ^ 3) - Cplx.smulQ inv.g2 wpv - Cplx.ofQ inv.g3
  lhs - rhs

end Weierstrass

namespace Theta

/-- Loop of `Theta.theta2_0`: `while (n < 100 && term.abs() > 1e-15) {
term = q^(n*(n+1)); sum += term; n++ }`, started with `term = 1`,
`sum = 0`, `n = 0`.  The nome `qn = exp(i*pi*tau)` is real for the
rectangular lattices used by the repository and is passed directly.
The first argument is fuel; with fuel `100` the invariant
`fuel + n = 100` makes the recursion agree with the source loop.
Returns the truncated sum together with the final value of `n`. -/
def theta2Go (qn : ℚ) : ℕ → ℕ → ℚ → ℚ → ℚ × ℕ
  | 0, n, _, sum => (sum, n)
  | fuel + 1, n, term, sum =>
    if n < 100 ∧ (1e-15 : ℚ) < |term| then
      theta2Go qn fuel (n + 1) (qn ^ (n * (n + 1))) (sum + qn ^ (n * (n + 1)))
    else (sum, n)

/-- Embeds `Theta.theta2_0(tau)` up to its prefactor: the source returns
`qQuarter * 2 * sum` where `qQuarter = q^0.25` (a transcendental value,
passed here as the parameter `qQuarter`). -/
def theta2_0 (qQuarter qn : ℚ) : ℚ := qQuarter * 2 * (theta2Go qn 100 0 1 0).1

/-- Loop of `Theta.theta3_0`: `while (n < 100) { term = q^(n*n); if
(term.abs() < 1e-15) break; sum += 2*term; n++ }` started with `sum = 1`,
`n = 1`.  Same fuel convention as `theta2Go`. -/
def theta3Go (qn : ℚ) : ℕ → ℕ → ℚ → ℚ × ℕ
  | 0, n, sum => (sum, n)
  | fuel + 1, n, sum =>
    if n < 100 then
      if |qn ^ (n * n)| < (1e-15 : ℚ) then (sum, n)
      else theta3Go qn fuel (n + 1) (sum + 2 * qn ^ (n * n))
    else (sum, n)

/-- Embeds `Theta.theta3_0(tau)` as a function of the real nome. -/
def theta3_0 (qn : ℚ) : ℚ := (theta3Go qn 100 1 1).1

/-- Loop of `Theta.theta4_0`: as `theta3Go` but adding
`sign * 2 * term` with `sign = 1` for even `n` and `-1` for odd `n`. -/
def theta4Go (qn : ℚ) : ℕ → ℕ → ℚ → ℚ × ℕ
  | 0, n, sum => (sum, n)
  | fuel + 1, n, sum =>
    if n < 100 then
      if |qn ^ (n * n)| < (1e-15 : ℚ) then (sum, n)
      else theta4Go qn fuel (n + 1) (sum + (if n % 2 = 0 then (2 : ℚ) else -2) * qn ^ (n * n))
    else (sum, n)

/-- Embeds `Theta.theta4_0(tau)` as a function of the real nome. -/
def theta4_0 (qn : ℚ) : ℚ := (theta4Go qn 100 1 1).1

end Theta

/-- Embeds `Vec3` (and `Vertex3D` of `TorusGenerator.kt`). -/
structure Vec3 where
  x : ℚ
  y : ℚ
  z : ℚ
deriving DecidableEq, Repr

/-- Embeds `Matrix3x4`: three rows of four coefficients. -/
structure Matrix3x4 where
  r1 : ℚ × ℚ × ℚ × ℚ
  r2 : ℚ × ℚ × ℚ × ℚ
  r3 : ℚ × ℚ × ℚ × ℚ
deriving DecidableEq, Repr

/-- Embeds `Matrix3x4.multiply(phi)`. -/
def Matrix3x4.multiply (A : Matrix3x4) (phi : ℚ × ℚ × ℚ × ℚ) : Vec3 :=
  ⟨A.r1.1 * phi.1 + A.r1.2.1 * phi.2.1 + A.r1.2.2.1 * phi.2.2.1 + A.r1.2.2.2 * phi.2.2.2,
   A.r2.1 * phi.1 + A.r2.2.1 * phi.2.1 + A.r2.2.2.1 * phi.2.2.1 + A.r2.2.2.2 * phi.2.2.2,
   A.r3.1 * phi.1 + A.r3.2.1 * phi.2.1 + A.r3.2.2.1 * phi.2.2.1 + A.r3.2.2.2 * phi.2.2.2⟩

namespace Projection

/-- Embeds `Projection.buildProjectionMatrix(p, q, z0)`.  As with
`Weierstrass.wp`, the invariants record and the square roots computed
from `(p, q)` are received as parameters `inv`, `sqrtA`, `kPrime`;
`inv.g2` is the value `Weierstrass.g2(p, q)` used by the source. -/
def buildProjectionMatrix (J : JacobiOracle) (kPrime : ℚ) (inv : LatticeInvariants)
    (sqrtA : ℚ) (p q : ℚ) (z0 : Cplx) : Matrix3x4 :=
  let wp0 := Weierstrass.wp J kPrime inv sqrtA z0
  let wpPrime0 := Weierstrass.wpPrime J kPrime inv sqrtA z0
  let wpPrimePrime0 := Cplx.smulQ 6 (wp0 * wp0) - Cplx.ofQ (inv.g2 / 2)
  let y1 := wpPrime0.re
  let y2 := wpPrime0.im
  let y1p := wpPrimePrime0.re
  let y2p := wpPrimePrime0.im
  ⟨(p * y1, p * y2, p * y1p, p * y2p),
   (-q * y2, q * y1, -q * y2p, q * y1p),
   (0, 0, 0, 1)⟩

/-- Embeds `Projection.buildDefaultProjectionMatrix(p, q)`: basepoint
`z0 = Complex(p/3, q/3)`. -/
def buildDefaultProjectionMatrix (J : JacobiOracle) (kPrime : ℚ)
    (inv : LatticeInvariants) (sqrtA : ℚ) (p q : ℚ) : Matrix3x4 :=
  buildProjectionMatrix J kPrime inv sqrtA p q ⟨p / 3, q / 3⟩

/-- Embeds `Projection.weierstrassTo4D(z, p, q)`. -/
def weierstrassTo4D (J : JacobiOracle) (kPrime : ℚ) (inv : LatticeInvariants)
    (sqrtA : ℚ) (z : Cplx) : ℚ × ℚ × ℚ × ℚ :=
  let wpv := Weierstrass.wp J kPrime inv sqrtA z
  let wppv := Weierstrass.wpPrime J kPrime inv sqrtA z
  (wpv.re, wpv.im, wppv.re, wppv.im)

/-- Embeds `Projection.embed(z, p, q, projectionMatrix)`. -/
def embed (J : JacobiOracle) (kPrime : ℚ) (inv : LatticeInvariants) (sqrtA : ℚ)
    (A : Matrix3x4) (z : Cplx) : Vec3 :=
  A.multiply (weierstrassTo4D J kPrime inv sqrtA z)

end Projection

/-- Nested `for (i in 0 until n) for (j in 0 until n)` loop collecting
`f i j` in row-major order, shared by the grid builders. -/
def gridLoop {α : Type} (f : ℕ → ℕ → α) (n : ℕ) : List α :=
  (List.range n).flatMap fun i => (List.range n).map fun j => f i j

theorem gridLoop_length {α : Type} (f : ℕ → ℕ → α) (n : ℕ) :
    (gridLoop f n).length = n * n := by
  simp only [gridLoop, List.length_flatMap]
  rw [show (List.length ∘ fun i => List.map (fun j => f i j) (List.range n)) = fun _ => n from
    funext fun i => by simp]
  simp [List.map_const', List.sum_replicate, smul_eq_mul, mul_comm]

theorem mem_gridLoop {α : Type} {f : ℕ → ℕ → α} {n : ℕ} {a : α}
    (h : a ∈ gridLoop f n) : ∃ i j, i < n ∧ j < n ∧ a = f i j := by
  simp only [gridLoop, List.mem_flatMap, List.mem_map, List.mem_range] at h
  obtain ⟨i, hi, j, hj, rfl⟩ := h
  exact ⟨i, j, hi, hj, rfl⟩

namespace Render

/-- Embeds `generateEmbeddedGrid(p, q, gridSize, A)` (Embedding.kt):
samples `(u, v) = (i/gridSize, j/gridSize)` over the grid, maps to
`z = Complex(u*p, v*q)` and embeds each point with the given matrix. -/
def generateEmbeddedGrid (J : JacobiOracle) (kPrime : ℚ) (inv : LatticeInvariants)
    (sqrtA : ℚ) (A : Matrix3x4) (p q : ℚ) (gridSize : ℕ) : List Vec3 :=
  gridLoop
    (fun i j =>
      Projection.embed J kPrime inv sqrtA A
        ⟨((i : ℚ) / (gridSize : ℚ)) * p, ((j : ℚ) / (gridSize : ℚ)) * q⟩)
    gridSize

/-- Embeds `generateGridFaces(gridSize)` (Embedding.kt): quadrilaterals
`(v0, v1, v2, v3)` over `i, j in 0 until gridSize - 1`, no wrap-around. -/
def generateGridFaces (gridSize : ℕ) : List (ℕ × ℕ × ℕ × ℕ) :=
  gridLoop
    (fun i j =>
      (i * gridSize + j, i * gridSize + (j + 1),
       (i + 1) * gridSize + (j + 1), (i + 1) * gridSize + j))
    (gridSize - 1)

end Render

/-- Oracle for the `cos`/`sin` calls in `TorusGenerator.projectToTorus`:
`cos i n` and `sin i n` stand for `cos(2*PI*i/n)` and `sin(2*PI*i/n)`
(the only angles the source evaluates).  Theorems assume the
Pythagorean identity `cos^2 + sin^2 = 1`. -/
structure TrigOracle where
  cos : ℕ → ℕ → ℚ
  sin : ℕ → ℕ → ℚ

/-- Embeds `Facet(v1, v2, v3, v4)` of the common `TorusGenerator.kt`. -/
structure Facet where
  v1 : ℕ
  v2 : ℕ
  v3 : ℕ
  v4 : ℕ
deriving DecidableEq, Repr

/-- Embeds `TorusGeometry`. -/
structure TorusGeometry where
  vertices : List Vec3
  facets : List Facet
  jInvariant : Cplx
  discriminant : Cplx
  tau : Cplx
deriving DecidableEq, Repr

namespace TorusGenerator

/-- Embeds `generateLatticePoints(period1, period2, degree)`: points
`period1*(n1*scale) + period2*(n2*scale)` for `n1, n2 in -10..10` with
`scale = 2^(-degree)`. -/
def generateLatticePoints (period1 period2 : Cplx) (degree : ℕ) : List Cplx :=
  let scale : ℚ := 1 / (2 ^ degree)
  (List.range 21).flatMap fun a =>
    (List.range 21).map fun b =>
      Cplx.smulQ (((a : ℚ) - 10) * scale) period1 +
        Cplx.smulQ (((b : ℚ) - 10) * scale) period2

/-- Embeds `projectToTorus(latticePoints, period1, period2, meshDensity)`:
the fixed parametrisation with `majorRadius = 2.0`, `minorRadius = 0.5`
at angles `u = 2*PI*i/meshDensity`, `v = 2*PI*j/meshDensity`.  The
`latticePoints`, `period1` and `period2` arguments are accepted and
ignored exactly as in the source body. -/
def projectToTorus (T : TrigOracle) (latticePoints : List Cplx)
    (period1 period2 : Cplx) (meshDensity : ℕ) : List Vec3 :=
  gridLoop
    (fun i j =>
      ⟨(2 + (1 / 2 : ℚ) * T.cos j meshDensity) * T.cos i meshDensity,
       (2 + (1 / 2 : ℚ) * T.cos j meshDensity) * T.sin i meshDensity,
       (1 / 2 : ℚ) * T.sin j meshDensity⟩)
    meshDensity

/-- Embeds `generateFacets(meshDensity)`: wrap-around quadrilaterals
`Facet(current, nextI, nextBoth, nextJ)`. -/
def generateFacets (meshDensity : ℕ) : List Facet :=
  gridLoop
    (fun i j =>
      ⟨i * meshDensity + j,
       ((i + 1) % meshDensity) * meshDensity + j,
       ((i + 1) % meshDensity) * meshDensity + (j + 1) % meshDensity,
       i * meshDensity + (j + 1) % meshDensity⟩)
    meshDensity

/-- Embeds `maxOf(1, kotlin.math.sqrt(p * q * degree).toInt())`: for
nonnegative input, truncating the real square root to an integer is the
natural-number square root of the floor. -/
def effectiveMeshDensity (p q : ℚ) (degree : ℕ) : ℕ :=
  max 1 (Nat.sqrt (Int.toNat ⌊p * q * (degree : ℚ)⌋))

/-- Embeds `TorusGenerator.generateTorus(p, q, degree, meshDensity)`.
The `meshDensity` parameter is accepted and ignored by the source (which
uses `effectiveMeshDensity` instead); `calculateEllipticInvariants`
returns the placeholder `jInvariant = 1728` and
`discriminant = period1 * period2`. -/
def generateTorus (T : TrigOracle) (p q : ℚ) (degree : ℕ) (meshDensity : ℕ) :
    TorusGeometry :=
  let period1 : Cplx := ⟨p, 0⟩
  let period2 : Cplx := ⟨0, q⟩
  let tau : Cplx := if period1.re ≠ 0 then ⟨period2.re / period1.re, period2.im / period1.re⟩
    else ⟨0, 1⟩
  let eff := effectiveMeshDensity p q degree
  let latticePoints := generateLatticePoints period1 period2 degree
  let vertices := projectToTorus T latticePoints period1 period2 eff
  let facets := generateFacets eff
  ⟨vertices, facets, ⟨1728, 0⟩, period1 * period2, tau⟩

end TorusGenerator

/-- Spec-side definition for the sn addition formula, written from the
specification's words: `sn(u1+i*u2|m) = (sn1*dn2 + i*cn1*dn1*sn2*cn2) /
(cn2^2 + m*sn1^2*sn2^2)` where subscript 1 is the real values at
`(u1, m)` and subscript 2 the real values at `(u2*sqrt(1-m), 1-m)`;
`kPrime` stands for `sqrt(1-m)`. -/
def Jacobi.snSpecFormula (J : JacobiOracle) (kPrime : ℚ) (u : Cplx) (m : ℚ) : Cplx :=
  let s1 := J.sn u.re m
  let c1 := J.cn u.re m
  let d1 := J.dn u.re m
  let s2 := J.sn (u.im * kPrime) (1 - m)
  let c2 := J.cn (u.im * kPrime) (1 - m)
  let d2 := J.dn (u.im * kPrime) (1 - m)
  Cplx.mk (s1 * d2) (c1 * d1 * s2 * c2) / Cplx.ofQ (c2 * c2 + m * s1 * s1 * s2 * s2)

/-- Concrete Jacobi oracle used for witnesses and counterexamples: the
rational parametrisation `sn = 2u/(1+u^2)`, `cn = dn = (1-u^2)/(1+u^2)`
(independent of the parameter).  It is odd in `sn` and even in `cn`,
`dn` everywhere, and satisfies both Jacobi identities at parameter
`m = 1`, where `dn = cn`. -/
def J1 : JacobiOracle where
  sn := fun u _ => 2 * u / (1 + u ^ 2)
  cn := fun u _ => (1 - u ^ 2) / (1 + u ^ 2)
  dn := fun u _ => (1 - u ^ 2) / (1 + u ^ 2)

/-- Invariants record produced by `computeInvariants` with theta values
`(1, 1, 0)`, `piA = 2`, `p = q = 1`: `e1 = e2 = 1/3`, `e3 = -2/3`,
`m = 1`, `scale = 1`, `g2 = -4/3`, `g3 = -8/27`; here `e1 - e3 = 1`, so
`sqrtA = 1` and (since `m = 1`) `kPrime = 0` are the exact square roots. -/
def sampleInv : LatticeInvariants := Weierstrass.computeInvariants 1 1 0 2 1 1

/-- Constant trigonometric oracle `cos = 1`, `sin = 0`: satisfies the
Pythagorean identity at every index. -/
def TrigOne : TrigOracle where
  cos := fun _ _ => 1
  sin := fun _ _ => 0

/-- Trigonometric oracle agreeing with the true values at the sample
angles used below: `cos(2*pi*1/2) = -1`, `sin` of every sampled angle 0,
all other sampled cosines 1.  Satisfies the Pythagorean identity at every
index. -/
def TrigHalf : TrigOracle where
  cos := fun i n => if n = 2 ∧ i = 1 then -1 else 1
  sin := fun _ _ => 0

theorem sampleInv_eq :
    sampleInv = ⟨1/3, 1/3, -(2/3), 1, 1, -(4/3), -(8/27)⟩ := by
  simp only [sampleInv, Weierstrass.computeInvariants, LatticeInvariants.mk.injEq]
  norm_num

/-- C2: grid generation with p = 2, q = 3, gridSize = 5 produces exactly
25 vertices and exactly 16 quadrilateral faces, and every vertex index
appearing in a face lies in [0, 25).  Stated for every Jacobi oracle,
invariants record and projection matrix, since the counts do not depend
on the embedded values. -/
theorem grid_generation_p2_q3_gridSize5 (J : JacobiOracle) (kPrime : ℚ)
    (inv : LatticeInvariants) (sqrtA : ℚ) (A : Matrix3x4) :
    (Render.generateEmbeddedGrid J kPrime inv sqrtA A 2 3 5).length = 25 ∧
    (Render.generateGridFaces 5).length = 16 ∧
    (Render.generateGridFaces 5).all
      (fun f => decide (f.1 < 25) && decide (f.2.1 < 25) &&
        decide (f.2.2.1 < 25) && decide (f.2.2.2 < 25)) = true := by
  refine ⟨?_, by decide, by decide⟩
  simpa using gridLoop_length
    (fun i j =>
      Projection.embed J kPrime inv sqrtA A
        ⟨((i : ℚ) / (5 : ℚ)) * 2, ((j : ℚ) / (5 : ℚ)) * 3⟩) 5

/-- C3 counterexample: `computeInvariants` performs no input validation.
At `p = -1 <= 0` (theta parameters `(1, 1, 0)`, `piA = 2`, `q = 1`) it
returns an ordinary invariants record instead of failing: no
`InvalidLatticeError` exists anywhere in the code. -/
theorem computeInvariants_returns_record_at_nonpositive_p :
    Weierstrass.computeInvariants 1 1 0 2 (-1) 1 =
      ⟨1/3, 1/3, -(2/3), 1, -1, -(4/3), -(8/27)⟩ := by
  simp only [Weierstrass.computeInvariants, LatticeInvariants.mk.injEq]
  norm_num

/-- C3 (amended): `computeInvariants` is total — for every input,
including nonpositive `p` or `q`, it returns the record computed by the
formulas (so `e1 + e2 + e3 = 0`, the stated `g2`, `g3` products, and the
modulus relation whenever `e1 = e3` does not make the division
degenerate); it never raises an error. -/
theorem computeInvariants_total_no_validation (theta2 theta3 theta4 piA p q : ℚ)
    (hne : (Weierstrass.computeInvariants theta2 theta3 theta4 piA p q).e1 ≠
      (Weierstrass.computeInvariants theta2 theta3 theta4 piA p q).e3) :
    (Weierstrass.computeInvariants theta2 theta3 theta4 piA p q).e1 +
      (Weierstrass.computeInvariants theta2 theta3 theta4 piA p q).e2 +
      (Weierstrass.computeInvariants theta2 theta3 theta4 piA p q).e3 = 0 ∧
    (Weierstrass.computeInvariants theta2 theta3 theta4 piA p q).g2 =
      4 * ((Weierstrass.computeInvariants theta2 theta3 theta4 piA p q).e1 *
        (Weierstrass.computeInvariants theta2 theta3 theta4 piA p q).e2 +
        (Weierstrass.computeInvariants theta2 theta3 theta4 piA p q).e2 *
        (Weierstrass.computeInvariants theta2 theta3 theta4 piA p q).e3 +
        (Weierstrass.computeInvariants theta2 theta3 theta4 piA p q).e3 *
        (Weierstrass.computeInvariants theta2 theta3 theta4 piA p q).e1) ∧
    (Weierstrass.computeInvariants theta2 theta3 theta4 piA p q).g3 =
      4 * (Weierstrass.computeInvariants theta2 theta3 theta4 piA p q).e1 *
        (Weierstrass.computeInvariants theta2 theta3 theta4 piA p q).e2 *
        (Weierstrass.computeInvariants theta2 theta3 theta4 piA p q).e3 ∧
    (Weierstrass.computeInvariants theta2 theta3 theta4 piA p q).m *
      ((Weierstrass.computeInvariants theta2 theta3 theta4 piA p q).e1 -
        (Weierstrass.computeInvariants theta2 theta3 theta4 piA p q).e3) =
      (Weierstrass.computeInvariants theta2 theta3 theta4 piA p q).e2 -
        (Weierstrass.computeInvariants theta2 theta3 theta4 piA p q).e3 := by
  simp only [Weierstrass.computeInvariants] at hne ⊢
  refine ⟨by ring, by ring, by ring, ?_⟩
  exact div_mul_cancel₀ _ (sub_ne_zero.mpr hne)

theorem computeInvariants_total_no_validation_witness :
    (Weierstrass.computeInvariants 1 1 0 2 1 1).e1 ≠
      (Weierstrass.computeInvariants 1 1 0 2 1 1).e3 ∧
    (Weierstrass.computeInvariants 1 1 0 2 1 1).m *
      ((Weierstrass.computeInvariants 1 1 0 2 1 1).e1 -
        (Weierstrass.computeInvariants 1 1 0 2 1 1).e3) =
      (Weierstrass.computeInvariants 1 1 0 2 1 1).e2 -
        (Weierstrass.computeInvariants 1 1 0 2 1 1).e3 :=
  ⟨by norm_num [Weierstrass.computeInvariants],
   (computeInvariants_total_no_validation 1 1 0 2 1 1
     (by norm_num [Weierstrass.computeInvariants])).2.2.2⟩

/-- C5: for `|u.im| >= 1e-15` (and modulus `m` in `(0,1)` with `kPrime`
the square root of `1 - m`), `snComplex(u, m)` equals the specification's
addition formula `(sn1*dn2 + i*cn1*dn1*sn2*cn2) / (cn2^2 + m*sn1^2*sn2^2)`
built from the real values at `(u.re, m)` and `(u.im*kPrime, 1-m)`; and
for `|u.im| < 1e-15` it is the real `sn(u.re|m)` with imaginary part
exactly 0. -/
theorem snComplex_matches_spec_formula (J : JacobiOracle) (kPrime : ℚ) (u : Cplx)
    (m : ℚ) (hm0 : 0 < m) (hm1 : m < 1) (hk : kPrime ^ 2 = 1 - m) :
    ((1e-15 : ℚ) ≤ |u.im| →
      Jacobi.snComplex J kPrime u m = Jacobi.snSpecFormula J kPrime u m) ∧
    (|u.im| < (1e-15 : ℚ) →
      Jacobi.snComplex J kPrime u m = ⟨J.sn u.re m, 0⟩) := by
  constructor
  · intro h
    unfold Jacobi.snComplex Jacobi.snSpecFormula
    rw [if_neg (not_lt.mpr h)]
    exact Cplx.div_ofQ _ _ _
  · intro h
    unfold Jacobi.snComplex
    rw [if_pos h]

theorem snComplex_matches_spec_formula_witness :
    (0 : ℚ) < 3/4 ∧ (3/4 : ℚ) < 1 ∧ ((1/2 : ℚ)) ^ 2 = 1 - 3/4 ∧
    Jacobi.snComplex J1 (1/2) ⟨0, 1⟩ (3/4) = Jacobi.snSpecFormula J1 (1/2) ⟨0, 1⟩ (3/4) :=
  ⟨by norm_num, by norm_num, by norm_num,
   (snComplex_matches_spec_formula J1 (1/2) ⟨0, 1⟩ (3/4) (by norm_num) (by norm_num)
     (by norm_num)).1 (by norm_num)⟩

/-- One continuing iteration of the `theta2_0` loop. -/
theorem theta2Go_step (qn : ℚ) (f n : ℕ) (term sum : ℚ)
    (h : n < 100 ∧ (1e-15 : ℚ) < |term|) :
    Theta.theta2Go qn (f + 1) n term sum =
      Theta.theta2Go qn f (n + 1) (qn ^ (n * (n + 1))) (sum + qn ^ (n * (n + 1))) := by
  simp only [Theta.theta2Go]
  rw [if_pos h]

/-- Exit of the `theta2_0` loop once the guard fails. -/
theorem theta2Go_stop (qn : ℚ) (f n : ℕ) (term sum : ℚ)
    (h : ¬(n < 100 ∧ (1e-15 : ℚ) < |term|)) :
    Theta.theta2Go qn (f + 1) n term sum = (sum, n) := by
  simp only [Theta.theta2Go]
  rw [if_neg h]

/-- One continuing iteration of the `theta3_0` loop. -/
theorem theta3Go_step (qn : ℚ) (f n : ℕ) (sum : ℚ) (h1 : n < 100)
    (h2 : ¬|qn ^ (n * n)| < (1e-15 : ℚ)) :
    Theta.theta3Go qn (f + 1) n sum =
      Theta.theta3Go qn f (n + 1) (sum + 2 * qn ^ (n * n)) := by
  simp only [Theta.theta3Go]
  rw [if_pos h1, if_neg h2]

/-- Early break of the `theta3_0` loop once the term is below 1e-15. -/
theorem theta3Go_break (qn : ℚ) (f n : ℕ) (sum : ℚ) (h1 : n < 100)
    (h2 : |qn ^ (n * n)| < (1e-15 : ℚ)) :
    Theta.theta3Go qn (f + 1) n sum = (sum, n) := by
  simp only [Theta.theta3Go]
  rw [if_pos h1, if_pos h2]

/-- One continuing iteration of the `theta4_0` loop. -/
theorem theta4Go_step (qn : ℚ) (f n : ℕ) (sum : ℚ) (h1 : n < 100)
    (h2 : ¬|qn ^ (n * n)| < (1e-15 : ℚ)) :
    Theta.theta4Go qn (f + 1) n sum =
      Theta.theta4Go qn f (n + 1)
        (sum + (if n % 2 = 0 then (2 : ℚ) else -2) * qn ^ (n * n)) := by
  simp only [Theta.theta4Go]
  rw [if_pos h1, if_neg h2]

/-- Early break of the `theta4_0` loop once the term is below 1e-15. -/
theorem theta4Go_break (qn : ℚ) (f n : ℕ) (sum : ℚ) (h1 : n < 100)
    (h2 : |qn ^ (n * n)| < (1e-15 : ℚ)) :
    Theta.theta4Go qn (f + 1) n sum = (sum, n) := by
  simp only [Theta.theta4Go]
  rw [if_pos h1, if_pos h2]

/-- For a nome in the window `[0.0432139182637, 0.0432139182638]` around
`exp(-pi)` (the nome at `tau = i`, the square lattice `p = q`), the
`theta2_0` loop runs the terms `n = 0, 1, 2, 3` and stops at `n = 4`
(where the previous term `qn^12 < 1e-15`), so the truncated sum is
exactly `1 + qn^2 + qn^6 + qn^12`. -/
theorem theta2Sum_closed (qn : ℚ) (h1 : (0.0432139182637 : ℚ) ≤ qn)
    (h2 : qn ≤ (0.0432139182638 : ℚ)) :
    (Theta.theta2Go qn 100 0 1 0).1 = 1 + qn ^ 2 + qn ^ 6 + qn ^ 12 := by
  have hq0 : (0 : ℚ) < qn := lt_of_lt_of_le (by norm_num) h1
  have habs : ∀ k : ℕ, |qn ^ k| = qn ^ k := fun k => abs_of_nonneg (pow_nonneg hq0.le k)
  have hlow : ∀ k : ℕ, (0.0432139182637 : ℚ) ^ k ≤ qn ^ k :=
    fun k => pow_le_pow_left₀ (by norm_num) h1 k
  have hup : ∀ k : ℕ, qn ^ k ≤ (0.0432139182638 : ℚ) ^ k :=
    fun k => pow_le_pow_left₀ hq0.le h2 k
  have hbig : ∀ k : ℕ, k ≤ 9 → (1e-15 : ℚ) < |qn ^ k| := by
    intro k hk
    rw [habs k]
    calc (1e-15 : ℚ) < (0.0432139182637 : ℚ) ^ 9 := by norm_num
      _ ≤ (0.0432139182637 : ℚ) ^ k := pow_le_pow_of_le_one (by norm_num) (by norm_num) hk
      _ ≤ qn ^ k := hlow k
  have hsmall : ∀ k : ℕ, 12 ≤ k → |qn ^ k| < (1e-15 : ℚ) := by
    intro k hk
    rw [habs k]
    calc qn ^ k ≤ (0.0432139182638 : ℚ) ^ k := hup k
      _ ≤ (0.0432139182638 : ℚ) ^ 12 := pow_le_pow_of_le_one (by norm_num) (by norm_num) hk
      _ < (1e-15 : ℚ) := by norm_num
  have e1 : Theta.theta2Go qn 100 0 1 0 = Theta.theta2Go qn 99 1 1 1 := by
    rw [show (100 : ℕ) = 99 + 1 from rfl,
        theta2Go_step qn 99 0 1 0 ⟨by norm_num, by norm_num⟩]
    norm_num
  have e2 : Theta.theta2Go qn 99 1 1 1 = Theta.theta2Go qn 98 2 (qn ^ 2) (1 + qn ^ 2) := by
    rw [show (99 : ℕ) = 98 + 1 from rfl,
        theta2Go_step qn 98 1 1 1 ⟨by norm_num, by norm_num⟩]
  have e3 : Theta.theta2Go qn 98 2 (qn ^ 2) (1 + qn ^ 2) =
      Theta.theta2Go qn 97 3 (qn ^ 6) (1 + qn ^ 2 + qn ^ 6) := by
    rw [show (98 : ℕ) = 97 + 1 from rfl,
        theta2Go_step qn 97 2 (qn ^ 2) (1 + qn ^ 2) ⟨by norm_num, hbig 2 (by norm_num)⟩]
  have e4 : Theta.theta2Go qn 97 3 (qn ^ 6) (1 + qn ^ 2 + qn ^ 6) =
      Theta.theta2Go qn 96 4 (qn ^ 12) (1 + qn ^ 2 + qn ^ 6 + qn ^ 12) := by
    rw [show (97 : ℕ) = 96 + 1 from rfl,
        theta2Go_step qn 96 3 (qn ^ 6) (1 + qn ^ 2 + qn ^ 6) ⟨by norm_num, hbig 6 (by norm_num)⟩]
  have e5 : Theta.theta2Go qn 96 4 (qn ^ 12) (1 + qn ^ 2 + qn ^ 6 + qn ^ 12) =
      (1 + qn ^ 2 + qn ^ 6 + qn ^ 12, 4) := by
    rw [show (96 : ℕ) = 95 + 1 from rfl]
    apply theta2Go_stop
    intro hcon
    exact lt_asymm (hsmall 12 le_rfl) hcon.2
  rw [e1, e2, e3, e4, e5]

/-- For a nome in the window around `exp(-pi)`, the `theta3_0` loop adds
the terms `n = 1, 2, 3` and breaks at `n = 4` (`qn^16 < 1e-15`), so
`theta3_0 qn = 1 + 2*qn + 2*qn^4 + 2*qn^9` exactly. -/
theorem theta3_0_closed (qn : ℚ) (h1 : (0.0432139182637 : ℚ) ≤ qn)
    (h2 : qn ≤ (0.0432139182638 : ℚ)) :
    Theta.theta3_0 qn = 1 + 2 * qn + 2 * qn ^ 4 + 2 * qn ^ 9 := by
  have hq0 : (0 : ℚ) < qn := lt_of_lt_of_le (by norm_num) h1
  have habs : ∀ k : ℕ, |qn ^ k| = qn ^ k := fun k => abs_of_nonneg (pow_nonneg hq0.le k)
  have hlow : ∀ k : ℕ, (0.0432139182637 : ℚ) ^ k ≤ qn ^ k :=
    fun k => pow_le_pow_left₀ (by norm_num) h1 k
  have hup : ∀ k : ℕ, qn ^ k ≤ (0.0432139182638 : ℚ) ^ k :=
    fun k => pow_le_pow_left₀ hq0.le h2 k
  have hbig : ∀ k : ℕ, k ≤ 9 → ¬|qn ^ k| < (1e-15 : ℚ) := by
    intro k hk
    rw [habs k]
    push_neg
    calc (1e-15 : ℚ) ≤ (0.0432139182637 : ℚ) ^ 9 := by norm_num
      _ ≤ (0.0432139182637 : ℚ) ^ k := pow_le_pow_of_le_one (by norm_num) (by norm_num) hk
      _ ≤ qn ^ k := hlow k
  have hsmall : ∀ k : ℕ, 12 ≤ k → |qn ^ k| < (1e-15 : ℚ) := by
    intro k hk
    rw [habs k]
    calc qn ^ k ≤ (0.0432139182638 : ℚ) ^ k := hup k
      _ ≤ (0.0432139182638 : ℚ) ^ 12 := pow_le_pow_of_le_one (by norm_num) (by norm_num) hk
      _ < (1e-15 : ℚ) := by norm_num
  have e1 : Theta.theta3Go qn 100 1 1 = Theta.theta3Go qn 99 2 (1 + 2 * qn) := by
    rw [show (100 : ℕ) = 99 + 1 from rfl,
        theta3Go_step qn 99 1 1 (by norm_num)
          (by rw [show (1 * 1 : ℕ) = 1 from rfl]; exact hbig 1 (by norm_num))]
    norm_num
  have e2 : Theta.theta3Go qn 99 2 (1 + 2 * qn) =
      Theta.theta3Go qn 98 3 (1 + 2 * qn + 2 * qn ^ 4) := by
    rw [show (99 : ℕ) = 98 + 1 from rfl,
        theta3Go_step qn 98 2 (1 + 2 * qn) (by norm_num)
          (by rw [show (2 * 2 : ℕ) = 4 from rfl]; exact hbig 4 (by norm_num))]
  have e3 : Theta.theta3Go qn 98 3 (1 + 2 * qn + 2 * qn ^ 4) =
      Theta.theta3Go qn 97 4 (1 + 2 * qn + 2 * qn ^ 4 + 2 * qn ^ 9) := by
    rw [show (98 : ℕ) = 97 + 1 from rfl,
        theta3Go_step qn 97 3 (1 + 2 * qn + 2 * qn ^ 4) (by norm_num)
          (by rw [show (3 * 3 : ℕ) = 9 from rfl]; exact hbig 9 (by norm_num))]
  have e4 : Theta.theta3Go qn 97 4 (1 + 2 * qn + 2 * qn ^ 4 + 2 * qn ^ 9) =
      (1 + 2 * qn + 2 * qn ^ 4 + 2 * qn ^ 9, 4) := by
    rw [show (97 : ℕ) = 96 + 1 from rfl]
    exact theta3Go_break qn 96 4 _ (by norm_num)
      (by rw [show (4 * 4 : ℕ) = 16 from rfl]; exact hsmall 16 (by norm_num))
  unfold Theta.theta3_0
  rw [e1, e2, e3, e4]

/-- For a nome in the window around `exp(-pi)`, the `theta4_0` loop adds
the signed terms `n = 1, 2, 3` and breaks at `n = 4`, so
`theta4_0 qn = 1 - 2*qn + 2*qn^4 - 2*qn^9` exactly. -/
theorem theta4_0_closed (qn : ℚ) (h1 : (0.0432139182637 : ℚ) ≤ qn)
    (h2 : qn ≤ (0.0432139182638 : ℚ)) :
    Theta.theta4_0 qn = 1 - 2 * qn + 2 * qn ^ 4 - 2 * qn ^ 9 := by
  have hq0 : (0 : ℚ) < qn := lt_of_lt_of_le (by norm_num) h1
  have habs : ∀ k : ℕ, |qn ^ k| = qn ^ k := fun k => abs_of_nonneg (pow_nonneg hq0.le k)
  have hlow : ∀ k : ℕ, (0.0432139182637 : ℚ) ^ k ≤ qn ^ k :=
    fun k => pow_le_pow_left₀ (by norm_num) h1 k
  have hup : ∀ k : ℕ, qn ^ k ≤ (0.0432139182638 : ℚ) ^ k :=
    fun k => pow_le_pow_left₀ hq0.le h2 k
  have hbig : ∀ k : ℕ, k ≤ 9 → ¬|qn ^ k| < (1e-15 : ℚ) := by
    intro k hk
    rw [habs k]
    push_neg
    calc (1e-15 : ℚ) ≤ (0.0432139182637 : ℚ) ^ 9 := by norm_num
      _ ≤ (0.0432139182637 : ℚ) ^ k := pow_le_pow_of_le_one (by norm_num) (by norm_num) hk
      _ ≤ qn ^ k := hlow k
  have hsmall : ∀ k : ℕ, 12 ≤ k → |qn ^ k| < (1e-15 : ℚ) := by
    intro k hk
    rw [habs k]
    calc qn ^ k ≤ (0.0432139182638 : ℚ) ^ k := hup k
      _ ≤ (0.0432139182638 : ℚ) ^ 12 := pow_le_pow_of_le_one (by norm_num) (by norm_num) hk
      _ < (1e-15 : ℚ) := by norm_num
  have e1 : Theta.theta4Go qn 100 1 1 = Theta.theta4Go qn 99 2 (1 - 2 * qn) := by
    rw [show (100 : ℕ) = 99 + 1 from rfl,
        theta4Go_step qn 99 1 1 (by norm_num)
          (by rw [show (1 * 1 : ℕ) = 1 from rfl]; exact hbig 1 (by norm_num))]
    norm_num
    ring_nf
  have e2 : Theta.theta4Go qn 99 2 (1 - 2 * qn) =
      Theta.theta4Go qn 98 3 (1 - 2 * qn + 2 * qn ^ 4) := by
    rw [show (99 : ℕ) = 98 + 1 from rfl,
        theta4Go_step qn 98 2 (1 - 2 * qn) (by norm_num)
          (by rw [show (2 * 2 : ℕ) = 4 from rfl]; exact hbig 4 (by norm_num))]
    norm_num
  have e3 : Theta.theta4Go qn 98 3 (1 - 2 * qn + 2 * qn ^ 4) =
      Theta.theta4Go qn 97 4 (1 - 2 * qn + 2 * qn ^ 4 - 2 * qn ^ 9) := by
    rw [show (98 : ℕ) = 97 + 1 from rfl,
        theta4Go_step qn 97 3 (1 - 2 * qn + 2 * qn ^ 4) (by norm_num)
          (by rw [show (3 * 3 : ℕ) = 9 from rfl]; exact hbig 9 (by norm_num))]
    norm_num
    ring_nf
  have e4 : Theta.theta4Go qn 97 4 (1 - 2 * qn + 2 * qn ^ 4 - 2 * qn ^ 9) =
      (1 - 2 * qn + 2 * qn ^ 4 - 2 * qn ^ 9, 4) := by
    rw [show (97 : ℕ) = 96 + 1 from rfl]
    exact theta4Go_break qn 96 4 _ (by norm_num)
      (by rw [show (4 * 4 : ℕ) = 16 from rfl]; exact hsmall 16 (by norm_num))
  unfold Theta.theta4_0
  rw [e1, e2, e3, e4]

/-- Pure bound: the `g3` combination `4*e1*e2*e3` with
`e1 = u*a/3`, `e2 = u*d/3`, `e3 = -e1-e2` stays below 1e-6 whenever
`0 <= u <= 6.2831854^2`, `0 <= a <= 21/10` and `|d| <= 4e-12`. -/
theorem g3_cube_bound (u a d : ℚ) (hu0 : 0 ≤ u)
    (huB : u ≤ (6.2831854 : ℚ) * 6.2831854)
    (ha0 : 0 ≤ a) (ha : a ≤ (21 / 10 : ℚ)) (hd : |d| ≤ (4e-12 : ℚ)) :
    |4 * (u * a / 3) * (u * d / 3) * (-(u * a / 3) - u * d / 3)| < (1e-6 : ℚ) := by
  have h1 : |u * a / 3| ≤ 7 / 10 * u := by
    rw [abs_of_nonneg (div_nonneg (mul_nonneg hu0 ha0) (by norm_num))]
    linarith [mul_le_mul_of_nonneg_left ha hu0]
  have h2 : |u * d / 3| ≤ u * (4e-12 : ℚ) / 3 := by
    rw [abs_div, abs_mul, abs_of_nonneg hu0, show |(3 : ℚ)| = 3 from by norm_num]
    linarith [mul_le_mul_of_nonneg_left hd hu0]
  have h3 : |(-(u * a / 3) - u * d / 3)| ≤ 7 / 10 * u + u * (4e-12 : ℚ) / 3 := by
    have hre : -(u * a / 3) - u * d / 3 = -((u * a / 3) + u * d / 3) := by ring
    rw [hre, abs_neg]
    calc |u * a / 3 + u * d / 3| ≤ |u * a / 3| + |u * d / 3| := abs_add _ _
      _ ≤ 7 / 10 * u + u * (4e-12 : ℚ) / 3 := add_le_add h1 h2
  have hb1 : (0 : ℚ) ≤ 4 * (7 / 10 * u) := by linarith
  have hb2 : (0 : ℚ) ≤ 4 * (7 / 10 * u) * (u * (4e-12 : ℚ) / 3) :=
    mul_nonneg hb1 (div_nonneg (mul_nonneg hu0 (by norm_num)) (by norm_num))
  rw [abs_mul, abs_mul, abs_mul, show |(4 : ℚ)| = 4 from by norm_num]
  have step1 : 4 * |u * a / 3| ≤ 4 * (7 / 10 * u) := by linarith
  have step2 : 4 * |u * a / 3| * |u * d / 3| ≤ 4 * (7 / 10 * u) * (u * (4e-12 : ℚ) / 3) :=
    mul_le_mul step1 h2 (abs_nonneg _) hb1
  calc 4 * |u * a / 3| * |u * d / 3| * |(-(u * a / 3) - u * d / 3)|
      ≤ 4 * (7 / 10 * u) * (u * (4e-12 : ℚ) / 3) * (7 / 10 * u + u * (4e-12 : ℚ) / 3) :=
        mul_le_mul step2 h3 (abs_nonneg _) hb2
    _ = 14 / 5 * ((4e-12 : ℚ) / 3) * (7 / 10 + (4e-12 : ℚ) / 3) * (u * u * u) := by ring
    _ ≤ 14 / 5 * ((4e-12 : ℚ) / 3) * (7 / 10 + (4e-12 : ℚ) / 3) *
        ((6.2831854 : ℚ) * 6.2831854 * ((6.2831854 : ℚ) * 6.2831854) *
          ((6.2831854 : ℚ) * 6.2831854)) := by
        apply mul_le_mul_of_nonneg_left _ (by norm_num)
        exact mul_le_mul (mul_le_mul huB huB hu0 (by norm_num)) huB hu0 (by norm_num)
    _ < (1e-6 : ℚ) := by norm_num

/-- The invariant `g3` returned by `computeInvariants` is below 1e-6 in
magnitude as soon as the theta fourth powers nearly cancel
(`|theta2^4 - theta4^4| <= 4e-12`), their sum is moderate, and the
scale `pi/(2p)` is at most `6.2831854`. -/
theorem computeInvariants_g3_bound (t2 t3 t4 piA p q : ℚ)
    (hd : |t2 ^ 4 - t4 ^ 4| ≤ (4e-12 : ℚ))
    (h34 : t3 ^ 4 + t4 ^ 4 ≤ (21 / 10 : ℚ))
    (hsc : |piA / (2 * p)| ≤ (6.2831854 : ℚ)) :
    |(Weierstrass.computeInvariants t2 t3 t4 piA p q).g3| < (1e-6 : ℚ) := by
  have h340 : (0 : ℚ) ≤ t3 ^ 4 + t4 ^ 4 := by positivity
  have hu0 : (0 : ℚ) ≤ piA / (2 * p) * (piA / (2 * p)) := mul_self_nonneg _
  have huB : piA / (2 * p) * (piA / (2 * p)) ≤ (6.2831854 : ℚ) * 6.2831854 := by
    rw [← abs_mul_abs_self]
    exact mul_le_mul hsc hsc (abs_nonneg _) (by norm_num)
  simp only [Weierstrass.computeInvariants]
  exact g3_cube_bound (piA / (2 * p) * (piA / (2 * p))) (t3 ^ 4 + t4 ^ 4) (t2 ^ 4 - t4 ^ 4)
    hu0 huB h340 h34 hd

set_option maxHeartbeats 2000000 in
/-- C8: for a square lattice the code evaluates the theta constants at
`tau = i`, where the nome is `exp(-pi) = 0.04321391826377...`; the
hypotheses put the oracle-computed nome `qn` in the rational window
`[0.0432139182637, 0.0432139182638]` containing it, take `qQuarter` to
be the code's `q.pow(0.25)` (so `qQuarter^4 = qn`), and bound the double
constant `PI` passed as `piA`.  With the theta constants computed by the
embedded truncated series `theta2_0`, `theta3_0`, `theta4_0`, the
invariant `g3` returned by `computeInvariants` satisfies `|g3| < 1e-6`
for every square lattice with `p = q >= 1/4`.  The restriction on `p`
is necessary: the truncated series leave a nonzero gap
`theta2^4 - theta4^4`, which enters `g3` multiplied by `(pi/(2p))^6`,
so for small enough `p` the tolerance is exceeded (see the
counterexample below). -/
theorem squareLattice_g3_small_for_moderate_p (qQuarter qn piA p q : ℚ)
    (hq1 : (0.0432139182637 : ℚ) ≤ qn) (hq2 : qn ≤ (0.0432139182638 : ℚ))
    (hqq : qQuarter ^ 4 = qn)
    (hpi1 : (3.14159265 : ℚ) ≤ piA) (hpi2 : piA ≤ (3.1415927 : ℚ))
    (hp : (1 / 4 : ℚ) ≤ p) (hpq : p = q) :
    |(Weierstrass.computeInvariants (Theta.theta2_0 qQuarter qn) (Theta.theta3_0 qn)
        (Theta.theta4_0 qn) piA p q).g3| < (1e-6 : ℚ) := by
  have hq0 : (0 : ℚ) < qn := lt_of_lt_of_le (by norm_num) hq1
  have hlow : ∀ k : ℕ, (0.0432139182637 : ℚ) ^ k ≤ qn ^ k :=
    fun k => pow_le_pow_left₀ (by norm_num) hq1 k
  have hup : ∀ k : ℕ, qn ^ k ≤ (0.0432139182638 : ℚ) ^ k :=
    fun k => pow_le_pow_left₀ hq0.le hq2 k
  have l2 := hlow 2
  have l4 := hlow 4
  have l6 := hlow 6
  have l9 := hlow 9
  have l12 := hlow 12
  have u2 := hup 2
  have u4 := hup 4
  have u6 := hup 6
  have u9 := hup 9
  have u12 := hup 12
  have hT2 : Theta.theta2_0 qQuarter qn =
      qQuarter * 2 * (1 + qn ^ 2 + qn ^ 6 + qn ^ 12) := by
    unfold Theta.theta2_0
    rw [theta2Sum_closed qn hq1 hq2]
  have hT3 := theta3_0_closed qn hq1 hq2
  have hT4 := theta4_0_closed qn hq1 hq2
  have hT24 : (qQuarter * 2 * (1 + qn ^ 2 + qn ^ 6 + qn ^ 12)) ^ 4 =
      16 * qn * (1 + qn ^ 2 + qn ^ 6 + qn ^ 12) ^ 4 := by
    rw [← hqq]; ring
  have hS0 : (0 : ℚ) ≤ 1 + qn ^ 2 + qn ^ 6 + qn ^ 12 := by positivity
  have hSlo : 1 + (0.0432139182637 : ℚ) ^ 2 + (0.0432139182637 : ℚ) ^ 6 +
      (0.0432139182637 : ℚ) ^ 12 ≤ 1 + qn ^ 2 + qn ^ 6 + qn ^ 12 := by linarith
  have hShi : 1 + qn ^ 2 + qn ^ 6 + qn ^ 12 ≤ 1 + (0.0432139182638 : ℚ) ^ 2 +
      (0.0432139182638 : ℚ) ^ 6 + (0.0432139182638 : ℚ) ^ 12 := by linarith
  have hS4lo := pow_le_pow_left₀ (by norm_num : (0 : ℚ) ≤ 1 + (0.0432139182637 : ℚ) ^ 2 +
      (0.0432139182637 : ℚ) ^ 6 + (0.0432139182637 : ℚ) ^ 12) hSlo 4
  have hS4hi := pow_le_pow_left₀ hS0 hShi 4
  have hA1 : 16 * (0.0432139182637 : ℚ) * (1 + (0.0432139182637 : ℚ) ^ 2 +
      (0.0432139182637 : ℚ) ^ 6 + (0.0432139182637 : ℚ) ^ 12) ^ 4 ≤
      16 * qn * (1 + qn ^ 2 + qn ^ 6 + qn ^ 12) ^ 4 :=
    mul_le_mul (by linarith) hS4lo (pow_nonneg (by norm_num) 4) (by linarith)
  have hA2 : 16 * qn * (1 + qn ^ 2 + qn ^ 6 + qn ^ 12) ^ 4 ≤
      16 * (0.0432139182638 : ℚ) * (1 + (0.0432139182638 : ℚ) ^ 2 +
        (0.0432139182638 : ℚ) ^ 6 + (0.0432139182638 : ℚ) ^ 12) ^ 4 :=
    mul_le_mul (by linarith) hS4hi (pow_nonneg hS0 4) (by norm_num)
  have hB1 : 1 - 2 * (0.0432139182638 : ℚ) + 2 * (0.0432139182637 : ℚ) ^ 4 -
      2 * (0.0432139182638 : ℚ) ^ 9 ≤ 1 - 2 * qn + 2 * qn ^ 4 - 2 * qn ^ 9 := by linarith
  have hB2 : 1 - 2 * qn + 2 * qn ^ 4 - 2 * qn ^ 9 ≤ 1 - 2 * (0.0432139182637 : ℚ) +
      2 * (0.0432139182638 : ℚ) ^ 4 - 2 * (0.0432139182637 : ℚ) ^ 9 := by linarith
  have hBlo0 : (0 : ℚ) ≤ 1 - 2 * (0.0432139182638 : ℚ) + 2 * (0.0432139182637 : ℚ) ^ 4 -
      2 * (0.0432139182638 : ℚ) ^ 9 := by norm_num
  have hT40 : (0 : ℚ) ≤ 1 - 2 * qn + 2 * qn ^ 4 - 2 * qn ^ 9 := le_trans hBlo0 hB1
  have h44lo := pow_le_pow_left₀ hBlo0 hB1 4
  have h44hi := pow_le_pow_left₀ hT40 hB2 4
  have hd : |(qQuarter * 2 * (1 + qn ^ 2 + qn ^ 6 + qn ^ 12)) ^ 4 -
      (1 - 2 * qn + 2 * qn ^ 4 - 2 * qn ^ 9) ^ 4| ≤ (4e-12 : ℚ) := by
    rw [hT24, abs_le]
    constructor
    · have hnum : -(4e-12 : ℚ) ≤ 16 * (0.0432139182637 : ℚ) * (1 + (0.0432139182637 : ℚ) ^ 2 +
          (0.0432139182637 : ℚ) ^ 6 + (0.0432139182637 : ℚ) ^ 12) ^ 4 -
          (1 - 2 * (0.0432139182637 : ℚ) + 2 * (0.0432139182638 : ℚ) ^ 4 -
            2 * (0.0432139182637 : ℚ) ^ 9) ^ 4 := by norm_num
      linarith
    · have hnum : 16 * (0.0432139182638 : ℚ) * (1 + (0.0432139182638 : ℚ) ^ 2 +
          (0.0432139182638 : ℚ) ^ 6 + (0.0432139182638 : ℚ) ^ 12) ^ 4 -
          (1 - 2 * (0.0432139182638 : ℚ) + 2 * (0.0432139182637 : ℚ) ^ 4 -
            2 * (0.0432139182638 : ℚ) ^ 9) ^ 4 ≤ (4e-12 : ℚ) := by norm_num
      linarith
  have hT30 : (0 : ℚ) ≤ 1 + 2 * qn + 2 * qn ^ 4 + 2 * qn ^ 9 := by
    linarith [hq0.le, pow_nonneg hq0.le 4, pow_nonneg hq0.le 9]
  have hT3hi : 1 + 2 * qn + 2 * qn ^ 4 + 2 * qn ^ 9 ≤ 1 + 2 * (0.0432139182638 : ℚ) +
      2 * (0.0432139182638 : ℚ) ^ 4 + 2 * (0.0432139182638 : ℚ) ^ 9 := by linarith
  have h34a := pow_le_pow_left₀ hT30 hT3hi 4
  have h34 : (1 + 2 * qn + 2 * qn ^ 4 + 2 * qn ^ 9) ^ 4 +
      (1 - 2 * qn + 2 * qn ^ 4 - 2 * qn ^ 9) ^ 4 ≤ (21 / 10 : ℚ) := by
    have hnum : (1 + 2 * (0.0432139182638 : ℚ) + 2 * (0.0432139182638 : ℚ) ^ 4 +
        2 * (0.0432139182638 : ℚ) ^ 9) ^ 4 + (1 - 2 * (0.0432139182637 : ℚ) +
        2 * (0.0432139182638 : ℚ) ^ 4 - 2 * (0.0432139182637 : ℚ) ^ 9) ^ 4 ≤
        (21 / 10 : ℚ) := by norm_num
    linarith
  have hp0 : (0 : ℚ) < p := lt_of_lt_of_le (by norm_num) hp
  have hsc : |piA / (2 * p)| ≤ (6.2831854 : ℚ) := by
    have hpiA0 : (0 : ℚ) < piA := lt_of_lt_of_le (by norm_num) hpi1
    have hpos : (0 : ℚ) ≤ piA / (2 * p) := div_nonneg hpiA0.le (by linarith)
    rw [abs_of_nonneg hpos, div_le_iff₀ (by linarith : (0 : ℚ) < 2 * p)]
    nlinarith
  rw [hT2, hT3, hT4]
  exact computeInvariants_g3_bound _ _ _ piA p q hd h34 hsc

theorem squareLattice_g3_small_for_moderate_p_witness :
    (0.0432139182637 : ℚ) ≤ (0.45593812776599 : ℚ) ^ 4 ∧
    (0.45593812776599 : ℚ) ^ 4 ≤ (0.0432139182638 : ℚ) ∧
    (3.14159265 : ℚ) ≤ (3.1415927 : ℚ) ∧ (1 / 4 : ℚ) ≤ 1 ∧
    |(Weierstrass.computeInvariants
        (Theta.theta2_0 (0.45593812776599 : ℚ) ((0.45593812776599 : ℚ) ^ 4))
        (Theta.theta3_0 ((0.45593812776599 : ℚ) ^ 4))
        (Theta.theta4_0 ((0.45593812776599 : ℚ) ^ 4))
        (3.14159265 : ℚ) 1 1).g3| < (1e-6 : ℚ) :=
  ⟨by norm_num, by norm_num, by norm_num, by norm_num,
   squareLattice_g3_small_for_moderate_p (0.45593812776599 : ℚ) ((0.45593812776599 : ℚ) ^ 4)
     (3.14159265 : ℚ) 1 1 (by norm_num) (by norm_num) rfl (le_refl _) (by norm_num)
     (by norm_num) rfl⟩

/-- C8 counterexample: the claim is false as stated for every
`p = q > 0`.  At `p = q = 1e-6 > 0`, with admissible oracle values (the
nome `0.45593812776599^4`, the fourth power of a rational approximation
of `exp(-pi/4)`, lies inside the `exp(-pi)` window, and
`piA = 3.14159265`), the `g3` computed from the truncated theta series
has `|g3| >= 1e-6` (it is about 5.2e23): the truncation gap
`theta2^4 - theta4^4` of the series, about -5.3e-14 at this nome, is
amplified by `(pi/(2p))^6`. -/
theorem squareLattice_g3_exceeds_tolerance_for_small_p :
    (0 : ℚ) < (1e-6 : ℚ) ∧
    (0.0432139182637 : ℚ) ≤ (0.45593812776599 : ℚ) ^ 4 ∧
    (0.45593812776599 : ℚ) ^ 4 ≤ (0.0432139182638 : ℚ) ∧
    (1e-6 : ℚ) ≤ |(Weierstrass.computeInvariants
        (Theta.theta2_0 (0.45593812776599 : ℚ) ((0.45593812776599 : ℚ) ^ 4))
        (Theta.theta3_0 ((0.45593812776599 : ℚ) ^ 4))
        (Theta.theta4_0 ((0.45593812776599 : ℚ) ^ 4))
        (3.14159265 : ℚ) (1e-6 : ℚ) (1e-6 : ℚ)).g3| := by
  refine ⟨by norm_num, by norm_num, by norm_num, ?_⟩
  have hT2 : Theta.theta2_0 (0.45593812776599 : ℚ) ((0.45593812776599 : ℚ) ^ 4) =
      (0.45593812776599 : ℚ) * 2 * (1 + ((0.45593812776599 : ℚ) ^ 4) ^ 2 +
        ((0.45593812776599 : ℚ) ^ 4) ^ 6 + ((0.45593812776599 : ℚ) ^ 4) ^ 12) := by
    unfold Theta.theta2_0
    rw [theta2Sum_closed _ (by norm_num) (by norm_num)]
  rw [hT2, theta3_0_closed _ (by norm_num) (by norm_num),
      theta4_0_closed _ (by norm_num) (by norm_num)]
  simp only [Weierstrass.computeInvariants]
  rw [le_abs]
  left
  norm_num

/-- C9: for every `p > 0`, `q > 0` (and every oracle and invariants data
`wp`/`wpPrime` consume), `buildDefaultProjectionMatrix(p, q)` returns
exactly `buildProjectionMatrix(p, q, z0)` with `z0 = p/3 + i*q/3`; the
source's default is literally that call. -/
theorem buildDefault_eq_explicit_basepoint (J : JacobiOracle) (kPrime : ℚ)
    (inv : LatticeInvariants) (sqrtA : ℚ) (p q : ℚ) (hp : 0 < p) (hq : 0 < q) :
    Projection.buildDefaultProjectionMatrix J kPrime inv sqrtA p q =
      Projection.buildProjectionMatrix J kPrime inv sqrtA p q ⟨p / 3, q / 3⟩ := rfl

theorem buildDefault_eq_explicit_basepoint_witness :
    (0 : ℚ) < 1 ∧
    Projection.buildDefaultProjectionMatrix J1 0 sampleInv 1 1 1 =
      Projection.buildProjectionMatrix J1 0 sampleInv 1 1 1 ⟨1 / 3, 1 / 3⟩ :=
  ⟨by norm_num,
   buildDefault_eq_explicit_basepoint J1 0 sampleInv 1 1 1 (by norm_num) (by norm_num)⟩

theorem theta2Go_counter_le (qn : ℚ) (f : ℕ) :
    ∀ (n : ℕ) (term sum : ℚ), n ≤ 100 → (Theta.theta2Go qn f n term sum).2 ≤ 100 := by
  induction f with
  | zero => intro n term sum h; simpa [Theta.theta2Go] using h
  | succ k ih =>
    intro n term sum h
    simp only [Theta.theta2Go]
    split_ifs with h1
    · exact ih (n + 1) _ _ (by omega)
    · simpa using h

theorem theta3Go_counter_le (qn : ℚ) (f : ℕ) :
    ∀ (n : ℕ) (sum : ℚ), n ≤ 100 → (Theta.theta3Go qn f n sum).2 ≤ 100 := by
  induction f with
  | zero => intro n sum h; simpa [Theta.theta3Go] using h
  | succ k ih =>
    intro n sum h
    simp only [Theta.theta3Go]
    split_ifs with h1 h2
    · simpa using h
    · exact ih (n + 1) _ (by omega)
    · simpa using h

theorem theta4Go_counter_le (qn : ℚ) (f : ℕ) :
    ∀ (n : ℕ) (sum : ℚ), n ≤ 100 → (Theta.theta4Go qn f n sum).2 ≤ 100 := by
  induction f with
  | zero => intro n sum h; simpa [Theta.theta4Go] using h
  | succ k ih =>
    intro n sum h
    simp only [Theta.theta4Go]
    split_ifs with h1 h2 h3
    · simpa using h
    · exact ih (n + 1) _ (by omega)
    · exact ih (n + 1) _ (by omega)
    · simpa using h

/-- C6 (amended): each theta-constant series iterates at most 100 terms
(the loop counter never passes the cap) and stops early once the term
magnitude falls below 1e-15; whatever happens, the truncated sum is
returned silently — the code has no NumericalNonConvergence signal, so
hitting the cap with a large term changes nothing about the result's
delivery. -/
theorem theta_series_iteration_cap (qn : ℚ) :
    (Theta.theta2Go qn 100 0 1 0).2 ≤ 100 ∧ (Theta.theta3Go qn 100 1 1).2 ≤ 100 ∧
    (Theta.theta4Go qn 100 1 1).2 ≤ 100 :=
  ⟨theta2Go_counter_le qn 100 0 1 0 (by omega),
   theta3Go_counter_le qn 100 1 1 (by omega),
   theta4Go_counter_le qn 100 1 1 (by omega)⟩

theorem theta3Go_at_nome_one (f : ℕ) :
    ∀ (n : ℕ) (s : ℚ), f + n = 101 → n ≤ 100 →
      Theta.theta3Go 1 f n s = (s + 2 * ((100 : ℚ) - n), 100) := by
  induction f with
  | zero => intro n s hf hn; omega
  | succ k ih =>
    intro n s hf hn
    simp only [Theta.theta3Go, one_pow]
    rcases Nat.lt_or_ge n 100 with hlt | hge
    · rw [if_pos hlt, if_neg (by norm_num)]
      rw [ih (n + 1) (s + 2 * 1) (by omega) (by omega)]
      rw [Prod.mk.injEq]
      constructor
      · push_cast
        ring
      · rfl
    · have hn100 : n = 100 := by omega
      subst hn100
      rw [if_neg (by omega)]
      rw [Prod.mk.injEq]
      constructor
      · norm_num
      · rfl

/-- C6 counterexample: at nome 1 (the boundary of the convergence
region, `tau -> 0`) the `theta3_0` series hits the iteration cap of 100
with the last term magnitude `|1^(99*99)| = 1` still above 1e-6, yet the
computation does not fail: it silently returns the truncated sum 199.
No NumericalNonConvergence condition exists in the code. -/
theorem theta3_cap_hit_returns_silently :
    (Theta.theta3Go 1 100 1 1).2 = 100 ∧ (1e-6 : ℚ) < |(1 : ℚ) ^ (99 * 99)| ∧
    Theta.theta3_0 1 = 199 := by
  refine ⟨?_, by norm_num, ?_⟩
  · rw [theta3Go_at_nome_one 100 1 1 (by omega) (by omega)]
  · unfold Theta.theta3_0
    rw [theta3Go_at_nome_one 100 1 1 (by omega) (by omega)]
    norm_num

theorem snComplex_neg_arg (J : JacobiOracle) (kPrime : ℚ) (u : Cplx) (m : ℚ)
    (hsn : ∀ x y, J.sn (-x) y = -(J.sn x y))
    (hcn : ∀ x y, J.cn (-x) y = J.cn x y)
    (hdn : ∀ x y, J.dn (-x) y = J.dn x y) :
    Jacobi.snComplex J kPrime (-u) m = -(Jacobi.snComplex J kPrime u m) := by
  unfold Jacobi.snComplex
  simp only [Cplx.neg_re, Cplx.neg_im, abs_neg]
  split_ifs with h
  · apply Cplx.ext <;> simp [hsn]
  · have harg : -u.im * kPrime = -(u.im * kPrime) := neg_mul _ _
    apply Cplx.ext <;>
      simp only [harg, hsn, hcn, hdn, Cplx.neg_re, Cplx.neg_im] <;>
      ring

theorem cnComplex_neg_arg (J : JacobiOracle) (kPrime : ℚ) (u : Cplx) (m : ℚ)
    (hsn : ∀ x y, J.sn (-x) y = -(J.sn x y))
    (hcn : ∀ x y, J.cn (-x) y = J.cn x y)
    (hdn : ∀ x y, J.dn (-x) y = J.dn x y) :
    Jacobi.cnComplex J kPrime (-u) m = Jacobi.cnComplex J kPrime u m := by
  unfold Jacobi.cnComplex
  simp only [Cplx.neg_re, Cplx.neg_im, abs_neg]
  split_ifs with h
  · apply Cplx.ext <;> simp [hcn]
  · have harg : -u.im * kPrime = -(u.im * kPrime) := neg_mul _ _
    apply Cplx.ext <;>
      simp only [harg, hsn, hcn, hdn, Cplx.neg_re, Cplx.neg_im] <;>
      ring

theorem dnComplex_neg_arg (J : JacobiOracle) (kPrime : ℚ) (u : Cplx) (m : ℚ)
    (hsn : ∀ x y, J.sn (-x) y = -(J.sn x y))
    (hcn : ∀ x y, J.cn (-x) y = J.cn x y)
    (hdn : ∀ x y, J.dn (-x) y = J.dn x y) :
    Jacobi.dnComplex J kPrime (-u) m = Jacobi.dnComplex J kPrime u m := by
  unfold Jacobi.dnComplex
  simp only [Cplx.neg_re, Cplx.neg_im, abs_neg]
  split_ifs with h
  · apply Cplx.ext <;> simp [hdn]
  · have harg : -u.im * kPrime = -(u.im * kPrime) := neg_mul _ _
    apply Cplx.ext <;>
      simp only [harg, hsn, hcn, hdn, Cplx.neg_re, Cplx.neg_im] <;>
      ring

/-- C7 (amended): away from the pole window — whenever the computed
`|sn(U|m)|` is at least the 1e-12 threshold — `wp` and `wpPrime` return
the plain unperturbed formula values, silently; the perturbation is the
only pole handling in the code, it emits no warning of any kind, and it
is triggered by this sn-magnitude test, not by the distance from `z` to
a lattice point. -/
theorem wp_wpPrime_silent_no_perturbation (J : JacobiOracle) (kPrime : ℚ)
    (inv : LatticeInvariants) (sqrtA : ℚ) (z : Cplx)
    (hpole : ¬ (Jacobi.snComplex J kPrime (Cplx.smulQ sqrtA z) inv.m).absSq <
      (1e-12 : ℚ) ^ 2) :
    Weierstrass.wp J kPrime inv sqrtA z =
      Cplx.ofQ inv.e3 + Cplx.ofQ (inv.e1 - inv.e3) /
        (Jacobi.snComplex J kPrime (Cplx.smulQ sqrtA z) inv.m *
         Jacobi.snComplex J kPrime (Cplx.smulQ sqrtA z) inv.m) ∧
    Weierstrass.wpPrime J kPrime inv sqrtA z =
      Jacobi.cnComplex J kPrime (Cplx.smulQ sqrtA z) inv.m *
        Jacobi.dnComplex J kPrime (Cplx.smulQ sqrtA z) inv.m *
        Cplx.ofQ (-2 * sqrtA ^ 3) /
        (Jacobi.snComplex J kPrime (Cplx.smulQ sqrtA z) inv.m) ^ 3 := by
  constructor
  · simp only [Weierstrass.wp, Jacobi.snSafe]
    rw [if_neg hpole]
  · simp only [Weierstrass.wpPrime]
    rw [if_neg hpole]

theorem wp_wpPrime_silent_no_perturbation_witness :
    ¬ ((Jacobi.snComplex J1 0 (Cplx.smulQ 1 ⟨1/2, 0⟩) sampleInv.m).absSq <
      (1e-12 : ℚ) ^ 2) ∧
    Weierstrass.wp J1 0 sampleInv 1 ⟨1/2, 0⟩ =
      Cplx.ofQ sampleInv.e3 + Cplx.ofQ (sampleInv.e1 - sampleInv.e3) /
        (Jacobi.snComplex J1 0 (Cplx.smulQ 1 ⟨1/2, 0⟩) sampleInv.m *
         Jacobi.snComplex J1 0 (Cplx.smulQ 1 ⟨1/2, 0⟩) sampleInv.m) := by
  have h : ¬ ((Jacobi.snComplex J1 0 (Cplx.smulQ 1 ⟨1/2, 0⟩) sampleInv.m).absSq <
      (1e-12 : ℚ) ^ 2) := by
    norm_num [Jacobi.snComplex, Cplx.smulQ, Cplx.absSq, J1, sampleInv,
      Weierstrass.computeInvariants]
  exact ⟨h, (wp_wpPrime_silent_no_perturbation J1 0 sampleInv 1 ⟨1/2, 0⟩ h).1⟩

/-- C7 counterexample: `z = 1e-10` lies within 1e-9 of the lattice point
0 (for any lattice periods), yet the computed `|sn(U|m)|` is above the
1e-12 threshold, so `snSafe` — the only pole handling `wp` and `wpPrime`
have — takes the silent unperturbed path; no PoleProximityWarning is
signalled there (or anywhere: the code has no such signal). -/
theorem no_warning_within_1e9_of_lattice_point :
    (⟨1e-10, 0⟩ : Cplx).absSq < ((1e-9 : ℚ)) ^ 2 ∧
    ¬ ((Jacobi.snComplex J1 0 (Cplx.smulQ 1 ⟨1e-10, 0⟩) sampleInv.m).absSq <
      (1e-12 : ℚ) ^ 2) ∧
    Jacobi.snSafe J1 0 (Cplx.smulQ 1 ⟨1e-10, 0⟩) sampleInv.m =
      Jacobi.snComplex J1 0 (Cplx.smulQ 1 ⟨1e-10, 0⟩) sampleInv.m := by
  have h : ¬ ((Jacobi.snComplex J1 0 (Cplx.smulQ 1 ⟨1e-10, 0⟩) sampleInv.m).absSq <
      (1e-12 : ℚ) ^ 2) := by
    norm_num [Jacobi.snComplex, Cplx.smulQ, Cplx.absSq, J1, sampleInv,
      Weierstrass.computeInvariants]
  refine ⟨by norm_num [Cplx.absSq], h, ?_⟩
  simp only [Jacobi.snSafe]
  rw [if_neg h]

theorem J1_parity :
    (∀ x y, J1.sn (-x) y = -(J1.sn x y)) ∧ (∀ x y, J1.cn (-x) y = J1.cn x y) ∧
    (∀ x y, J1.dn (-x) y = J1.dn x y) := by
  refine ⟨fun x y => ?_, fun x y => ?_, fun x y => ?_⟩ <;> · simp only [J1]; ring

/-- C4 (amended): wherever the pole-perturbation branch is not taken —
`|sn(U|m)| >= 1e-12`, i.e. z away from the lattice points — `wp` is even
and `wpPrime` is odd exactly (so in particular within 1e-8), for every
Jacobi oracle whose real routine is odd in sn and even in cn, dn.
Inside the 1e-12 window the perturbed arguments `U + (1e-12, 1e-12)` and
`-U + (1e-12, 1e-12)` are not negatives of each other and the symmetry
can fail (see the counterexample). -/
theorem wp_even_wpPrime_odd_away_from_poles (J : JacobiOracle) (kPrime : ℚ)
    (inv : LatticeInvariants) (sqrtA : ℚ) (z : Cplx)
    (hsn : ∀ x y, J.sn (-x) y = -(J.sn x y))
    (hcn : ∀ x y, J.cn (-x) y = J.cn x y)
    (hdn : ∀ x y, J.dn (-x) y = J.dn x y)
    (hpole : ¬ (Jacobi.snComplex J kPrime (Cplx.smulQ sqrtA z) inv.m).absSq <
      (1e-12 : ℚ) ^ 2) :
    Weierstrass.wp J kPrime inv sqrtA (-z) = Weierstrass.wp J kPrime inv sqrtA z ∧
    Weierstrass.wpPrime J kPrime inv sqrtA (-z) =
      -(Weierstrass.wpPrime J kPrime inv sqrtA z) := by
  have hU : Cplx.smulQ sqrtA (-z) = -(Cplx.smulQ sqrtA z) := Cplx.smulQ_neg_arg _ _
  have hS := snComplex_neg_arg J kPrime (Cplx.smulQ sqrtA z) inv.m hsn hcn hdn
  have hC := cnComplex_neg_arg J kPrime (Cplx.smulQ sqrtA z) inv.m hsn hcn hdn
  have hD := dnComplex_neg_arg J kPrime (Cplx.smulQ sqrtA z) inv.m hsn hcn hdn
  constructor
  · simp only [Weierstrass.wp, Jacobi.snSafe, hU, hS, Cplx.absSq_neg]
    rw [if_neg hpole, if_neg hpole, neg_mul_neg]
  · simp only [Weierstrass.wpPrime, hU, hS, hC, hD, Cplx.absSq_neg]
    rw [if_neg hpole, if_neg hpole, Odd.neg_pow (⟨1, by norm_num⟩ : Odd 3), div_neg]

theorem wp_even_wpPrime_odd_away_from_poles_witness :
    ¬ ((Jacobi.snComplex J1 0 (Cplx.smulQ 1 ⟨1/2, 0⟩) sampleInv.m).absSq <
      (1e-12 : ℚ) ^ 2) ∧
    Weierstrass.wp J1 0 sampleInv 1 (-(⟨1/2, 0⟩ : Cplx)) =
      Weierstrass.wp J1 0 sampleInv 1 ⟨1/2, 0⟩ ∧
    Weierstrass.wpPrime J1 0 sampleInv 1 (-(⟨1/2, 0⟩ : Cplx)) =
      -(Weierstrass.wpPrime J1 0 sampleInv 1 ⟨1/2, 0⟩) := by
  have hp : ¬ ((Jacobi.snComplex J1 0 (Cplx.smulQ 1 ⟨1/2, 0⟩) sampleInv.m).absSq <
      (1e-12 : ℚ) ^ 2) := by
    norm_num [Jacobi.snComplex, Cplx.smulQ, Cplx.absSq, J1, sampleInv,
      Weierstrass.computeInvariants]
  have h := wp_even_wpPrime_odd_away_from_poles J1 0 sampleInv 1 ⟨1/2, 0⟩
    J1_parity.1 J1_parity.2.1 J1_parity.2.2 hp
  exact ⟨hp, h.1, h.2⟩

/-- C4 counterexample: inside the pole-perturbation window the evenness
of `wp` fails grossly.  At `z = 1e-13` (real) with the invariants record
of the sample lattice (`m = 1`, `sqrtA = 1`, `kPrime = 0`) and the
concrete oracle `J1`, `|sn(U|1)| < 1e-12`, so `wp(z)` is evaluated at
the perturbed argument `U + (1e-12, 1e-12)` while `wp(-z)` is evaluated
at `-U + (1e-12, 1e-12)`; the two results differ by around 1e23, far
above the claimed 1e-8 tolerance. -/
theorem wp_even_fails_inside_pole_window :
    ¬ ((Weierstrass.wp J1 0 sampleInv 1 (-(⟨1e-13, 0⟩ : Cplx)) -
        Weierstrass.wp J1 0 sampleInv 1 ⟨1e-13, 0⟩).absSq < ((1e-8 : ℚ)) ^ 2) := by
  norm_num [Weierstrass.wp, Jacobi.snSafe, Jacobi.snComplex, J1, sampleInv,
    Weierstrass.computeInvariants, Cplx.absSq, Cplx.smulQ, Cplx.ofQ, div_eq_mul_inv,
    Cplx.mul_re, Cplx.mul_im, Cplx.inv_re, Cplx.inv_im, Cplx.add_re, Cplx.add_im,
    Cplx.sub_re, Cplx.sub_im, Cplx.neg_re, Cplx.neg_im]

/-- C10 (amended): every vertex generated by `TorusGenerator.generateTorus`
lies on the fixed geometric torus with major radius 2 and minor radius
0.5 — `(sqrt(x^2 + y^2) - 2)^2 + z^2 = 0.25` — and `projectToTorus`
ignores the lattice points and the periods entirely.  The lattice
parameters do, however, influence which positions are sampled, through
the effective mesh density (see the counterexample). -/
theorem torus_vertices_on_fixed_torus (T : TrigOracle)
    (htrig : ∀ i n, (T.cos i n) ^ 2 + (T.sin i n) ^ 2 = 1) (p q : ℚ)
    (degree meshDensity : ℕ) :
    (∀ v ∈ (TorusGenerator.generateTorus T p q degree meshDensity).vertices,
      (Real.sqrt (((v.x : ℝ)) ^ 2 + ((v.y : ℝ)) ^ 2) - 2) ^ 2 + ((v.z : ℝ)) ^ 2
        = 1 / 4) ∧
    (∀ (pts pts' : List Cplx) (a b a' b' : Cplx) (n : ℕ),
      TorusGenerator.projectToTorus T pts a b n =
        TorusGenerator.projectToTorus T pts' a' b' n) := by
  constructor
  · intro v hv
    simp only [TorusGenerator.generateTorus, TorusGenerator.projectToTorus] at hv
    obtain ⟨i, j, hi, hj, rfl⟩ := mem_gridLoop hv
    dsimp only
    push_cast
    have h1 : ((T.cos i (TorusGenerator.effectiveMeshDensity p q degree) : ℝ)) ^ 2 +
        ((T.sin i (TorusGenerator.effectiveMeshDensity p q degree) : ℝ)) ^ 2 = 1 := by
      exact_mod_cast htrig i _
    have h2 : ((T.cos j (TorusGenerator.effectiveMeshDensity p q degree) : ℝ)) ^ 2 +
        ((T.sin j (TorusGenerator.effectiveMeshDensity p q degree) : ℝ)) ^ 2 = 1 := by
      exact_mod_cast htrig j _
    set cu := ((T.cos i (TorusGenerator.effectiveMeshDensity p q degree) : ℝ))
    set su := ((T.sin i (TorusGenerator.effectiveMeshDensity p q degree) : ℝ))
    set cv := ((T.cos j (TorusGenerator.effectiveMeshDensity p q degree) : ℝ))
    set sv := ((T.sin j (TorusGenerator.effectiveMeshDensity p q degree) : ℝ))
    have hr : (0 : ℝ) ≤ 2 + 1 / 2 * cv := by
      nlinarith [sq_nonneg (cv + 1), sq_nonneg sv]
    have hxy : ((2 + 1 / 2 * cv) * cu) ^ 2 + ((2 + 1 / 2 * cv) * su) ^ 2 =
        (2 + 1 / 2 * cv) ^ 2 := by
      have expand : ((2 + 1 / 2 * cv) * cu) ^ 2 + ((2 + 1 / 2 * cv) * su) ^ 2 =
          (2 + 1 / 2 * cv) ^ 2 * (cu ^ 2 + su ^ 2) := by ring
      rw [expand, h1, mul_one]
    rw [hxy, Real.sqrt_sq hr]
    nlinarith [h2]
  · intro pts pts' a b a' b' n
    rfl

theorem torus_vertices_on_fixed_torus_witness :
    ((TrigOne.cos 0 1) ^ 2 + (TrigOne.sin 0 1) ^ 2 = 1) ∧
    (Real.sqrt ((((5 / 2 : ℚ) : ℝ)) ^ 2 + (((0 : ℚ) : ℝ)) ^ 2) - 2) ^ 2 +
      (((0 : ℚ) : ℝ)) ^ 2 = 1 / 4 := by
  have heff : TorusGenerator.effectiveMeshDensity 1 1 1 = 1 := by
    norm_num [TorusGenerator.effectiveMeshDensity]
  have hmem : (⟨5 / 2, 0, 0⟩ : Vec3) ∈
      (TorusGenerator.generateTorus TrigOne 1 1 1 1).vertices := by
    simp only [TorusGenerator.generateTorus, TorusGenerator.projectToTorus, heff,
      gridLoop, List.range_succ, List.range_zero, List.nil_append,
      List.flatMap_cons, List.map_cons, List.map_nil, List.flatMap_nil,
      List.append_nil, List.mem_singleton, TrigOne]
    rw [Vec3.mk.injEq]
    norm_num
  exact ⟨by norm_num [TrigOne],
    (torus_vertices_on_fixed_torus TrigOne (fun i n => by norm_num [TrigOne]) 1 1 1
      1).1 ⟨5 / 2, 0, 0⟩ hmem⟩

/-- C10 counterexample: the sampled vertex positions do depend on `p`
and `q`.  With the oracle `TrigHalf` (which satisfies the Pythagorean
identity everywhere and matches the true cosines at the sampled angles),
`generateTorus` at `p = q = 2`, `degree = 1` has effective mesh density
2 and contains the vertex `(-5/2, 0, 0)`, while at `p = q = 1` the
density is 1 and that vertex never appears. -/
theorem torus_vertex_positions_depend_on_p_q :
    (⟨-(5 / 2), 0, 0⟩ : Vec3) ∈
      (TorusGenerator.generateTorus TrigHalf 2 2 1 20).vertices ∧
    (⟨-(5 / 2), 0, 0⟩ : Vec3) ∉
      (TorusGenerator.generateTorus TrigHalf 1 1 1 20).vertices := by
  have heff2 : TorusGenerator.effectiveMeshDensity 2 2 1 = 2 := by
    have h4 : ((2 : ℚ) * 2 * ((1 : ℕ) : ℚ)) = 4 := by norm_num
    simp only [TorusGenerator.effectiveMeshDensity, h4]
    have hfl : ⌊(4 : ℚ)⌋ = 4 := by norm_num
    rw [hfl]
    norm_num [show Int.toNat 4 = 4 from rfl, show (4 : ℕ) = 2 * 2 from rfl,
      Nat.sqrt_eq]
  have heff1 : TorusGenerator.effectiveMeshDensity 1 1 1 = 1 := by
    norm_num [TorusGenerator.effectiveMeshDensity]
  constructor
  · simp only [TorusGenerator.generateTorus, TorusGenerator.projectToTorus, heff2,
      gridLoop, List.range_succ, List.range_zero, List.nil_append, List.cons_append,
      List.flatMap_cons, List.map_cons, List.map_nil, List.flatMap_nil,
      List.append_nil, List.mem_cons, List.mem_singleton, TrigHalf]
    norm_num [Vec3.mk.injEq]
  · simp only [TorusGenerator.generateTorus, TorusGenerator.projectToTorus, heff1,
      gridLoop, List.range_succ, List.range_zero, List.nil_append,
      List.flatMap_cons, List.map_cons, List.map_nil, List.flatMap_nil,
      List.append_nil, List.mem_singleton, TrigHalf]
    norm_num [Vec3.mk.injEq]

/-- The real-constant embedding `ofQ` as a ring homomorphism (used to
move numerals across it). -/
def ofQRingHom : ℚ →+* Cplx where
  toFun := Cplx.ofQ
  map_one' := rfl
  map_mul' := Cplx.ofQ_mul
  map_zero' := rfl
  map_add' := Cplx.ofQ_add

theorem ofQ_ofNat (n : ℕ) [n.AtLeastTwo] :
    Cplx.ofQ (OfNat.ofNat n) = (OfNat.ofNat n : Cplx) :=
  map_ofNat ofQRingHom n

theorem wp_no_perturb (J : JacobiOracle) (kPrime : ℚ) (inv : LatticeInvariants)
    (sqrtA : ℚ) (z : Cplx)
    (hpole : ¬ (Jacobi.snComplex J kPrime (Cplx.smulQ sqrtA z) inv.m).absSq <
      (1e-12 : ℚ) ^ 2) :
    Weierstrass.wp J kPrime inv sqrtA z =
      Cplx.ofQ inv.e3 + Cplx.ofQ (inv.e1 - inv.e3) /
        (Jacobi.snComplex J kPrime (Cplx.smulQ sqrtA z) inv.m *
         Jacobi.snComplex J kPrime (Cplx.smulQ sqrtA z) inv.m) := by
  simp only [Weierstrass.wp, Jacobi.snSafe]
  rw [if_neg hpole]

theorem wpPrime_no_perturb (J : JacobiOracle) (kPrime : ℚ) (inv : LatticeInvariants)
    (sqrtA : ℚ) (z : Cplx)
    (hpole : ¬ (Jacobi.snComplex J kPrime (Cplx.smulQ sqrtA z) inv.m).absSq <
      (1e-12 : ℚ) ^ 2) :
    Weierstrass.wpPrime J kPrime inv sqrtA z =
      Jacobi.cnComplex J kPrime (Cplx.smulQ sqrtA z) inv.m *
        Jacobi.dnComplex J kPrime (Cplx.smulQ sqrtA z) inv.m *
        Cplx.ofQ (-2 * sqrtA ^ 3) /
        (Jacobi.snComplex J kPrime (Cplx.smulQ sqrtA z) inv.m) ^ 3 := by
  simp only [Weierstrass.wpPrime]
  rw [if_neg hpole]

theorem residual_key (a b mm sA s cc d : Cplx) (hs : s ≠ 0)
    (hM : mm * (a + a + b) = a + b + b)
    (hSA : sA ^ 2 = a + a + b)
    (hid1 : s * s + cc * cc = 1)
    (hid2 : d * d + mm * (s * s) = 1) :
    (cc * d * (-(2 : Cplx) * sA ^ 3) / s ^ 3) *
        (cc * d * (-(2 : Cplx) * sA ^ 3) / s ^ 3) -
      ((4 : Cplx) * ((-a - b) + (a + a + b) / (s * s)) ^ 3 -
        (4 : Cplx) * (a * b + b * (-a - b) + (-a - b) * a) *
          ((-a - b) + (a + a + b) / (s * s)) -
        (4 : Cplx) * (a * b * (-a - b))) =
      (8 : Cplx) * (a * b + b * (-a - b) + (-a - b) * a) *
        ((-a - b) + (a + a + b) / (s * s)) := by
  have hc2 : cc * cc = 1 - s * s := by linear_combination hid1
  have hd2 : d * d = 1 - mm * (s * s) := by linear_combination hid2
  have hPP : (cc * d * (-(2 : Cplx) * sA ^ 3) / s ^ 3) *
      (cc * d * (-(2 : Cplx) * sA ^ 3) / s ^ 3) =
      (4 : Cplx) * ((cc * cc) * ((d * d) * ((sA ^ 2) ^ 3))) / (s ^ 3 * s ^ 3) := by
    rw [div_mul_div_comm]
    congr 1
    ring
  rw [hPP, hc2, hd2, hSA]
  have helim : (1 - mm * (s * s)) * ((a + a + b) ^ 3) =
      ((a + a + b) - (a + b + b) * (s * s)) * (a + a + b) ^ 2 := by
    linear_combination (-(a + a + b) ^ 2 * (s * s)) * hM
  rw [show ((4 : Cplx) * ((1 - s * s) * ((1 - mm * (s * s)) * ((a + a + b) ^ 3))))
      = (4 : Cplx) * ((1 - s * s) * (((1 - mm * (s * s)) * ((a + a + b) ^ 3)))) from rfl]
  rw [helim]
  have hs2 : s * s ≠ 0 := mul_ne_zero hs hs
  have hs3 : s ^ 3 ≠ 0 := pow_ne_zero _ hs
  field_simp
  ring

/-- C1: the residual computed by `verifyDifferentialEquation` is NOT
close to zero.  Because the code computes `g2 = 4*(e1*e2 + e2*e3 + e3*e1)`
— the opposite sign of the standard invariant `g2 = -4*(e1*e2 + e2*e3 +
e3*e1)` — the returned value equals `8*(e1*e2 + e2*e3 + e3*e1) * wp(z)`
exactly, for every point where the Jacobi values satisfy their defining
identities and no pole perturbation occurs.  This residual is of the
order of `g2 * wp(z)`, far above the 1e-8 tolerance the specification,
the code's own documentation and the test suite demand. -/
theorem verifyDifferentialEquation_residual_eq (J : JacobiOracle) (kPrime : ℚ)
    (inv : LatticeInvariants) (sqrtA : ℚ) (z : Cplx)
    (he3 : inv.e1 + inv.e2 + inv.e3 = 0)
    (hm : inv.m * (inv.e1 - inv.e3) = inv.e2 - inv.e3)
    (hg2 : inv.g2 = 4 * (inv.e1 * inv.e2 + inv.e2 * inv.e3 + inv.e3 * inv.e1))
    (hg3 : inv.g3 = 4 * (inv.e1 * inv.e2 * inv.e3))
    (hsq : sqrtA ^ 2 = inv.e1 - inv.e3)
    (hid1 : Jacobi.snComplex J kPrime (Cplx.smulQ sqrtA z) inv.m *
        Jacobi.snComplex J kPrime (Cplx.smulQ sqrtA z) inv.m +
      Jacobi.cnComplex J kPrime (Cplx.smulQ sqrtA z) inv.m *
        Jacobi.cnComplex J kPrime (Cplx.smulQ sqrtA z) inv.m = 1)
    (hid2 : Jacobi.dnComplex J kPrime (Cplx.smulQ sqrtA z) inv.m *
        Jacobi.dnComplex J kPrime (Cplx.smulQ sqrtA z) inv.m +
      Cplx.ofQ inv.m * (Jacobi.snComplex J kPrime (Cplx.smulQ sqrtA z) inv.m *
        Jacobi.snComplex J kPrime (Cplx.smulQ sqrtA z) inv.m) = 1)
    (hpole : ¬ (Jacobi.snComplex J kPrime (Cplx.smulQ sqrtA z) inv.m).absSq <
      (1e-12 : ℚ) ^ 2) :
    Weierstrass.verifyDifferentialEquation J kPrime inv sqrtA z =
      Cplx.smulQ (8 * (inv.e1 * inv.e2 + inv.e2 * inv.e3 + inv.e3 * inv.e1))
        (Weierstrass.wp J kPrime inv sqrtA z) := by
  have hq1 : inv.e1 - inv.e3 = inv.e1 + inv.e1 + inv.e2 := by linarith
  have hq2 : inv.e3 = -inv.e1 - inv.e2 := by linarith
  rw [hq1] at hm hsq
  have hq3 : inv.e2 - inv.e3 = inv.e1 + inv.e2 + inv.e2 := by linarith
  rw [hq3] at hm
  have h3 : Cplx.ofQ inv.e3 = -Cplx.ofQ inv.e1 - Cplx.ofQ inv.e2 := by
    rw [hq2, Cplx.ofQ_sub, Cplx.ofQ_neg]
  have hA : Cplx.ofQ (inv.e1 - inv.e3) =
      Cplx.ofQ inv.e1 + Cplx.ofQ inv.e1 + Cplx.ofQ inv.e2 := by
    rw [hq1, Cplx.ofQ_add, Cplx.ofQ_add]
  have hM' : Cplx.ofQ inv.m * (Cplx.ofQ inv.e1 + Cplx.ofQ inv.e1 + Cplx.ofQ inv.e2) =
      Cplx.ofQ inv.e1 + Cplx.ofQ inv.e2 + Cplx.ofQ inv.e2 := by
    rw [← Cplx.ofQ_add, ← Cplx.ofQ_add, ← Cplx.ofQ_mul, hm,
      Cplx.ofQ_add, Cplx.ofQ_add]
  have hSA' : Cplx.ofQ sqrtA ^ 2 =
      Cplx.ofQ inv.e1 + Cplx.ofQ inv.e1 + Cplx.ofQ inv.e2 := by
    rw [← Cplx.ofQ_pow, hsq, Cplx.ofQ_add, Cplx.ofQ_add]
  have hG2 : Cplx.ofQ inv.g2 = (4 : Cplx) *
      (Cplx.ofQ inv.e1 * Cplx.ofQ inv.e2 +
       Cplx.ofQ inv.e2 * (-Cplx.ofQ inv.e1 - Cplx.ofQ inv.e2) +
       (-Cplx.ofQ inv.e1 - Cplx.ofQ inv.e2) * Cplx.ofQ inv.e1) := by
    rw [hg2, Cplx.ofQ_mul, ofQ_ofNat, Cplx.ofQ_add, Cplx.ofQ_add, Cplx.ofQ_mul,
      Cplx.ofQ_mul, Cplx.ofQ_mul, h3]
  have hG3 : Cplx.ofQ inv.g3 = (4 : Cplx) *
      (Cplx.ofQ inv.e1 * Cplx.ofQ inv.e2 * (-Cplx.ofQ inv.e1 - Cplx.ofQ inv.e2)) := by
    rw [hg3, Cplx.ofQ_mul, ofQ_ofNat, Cplx.ofQ_mul, Cplx.ofQ_mul, h3]
  have h8 : Cplx.ofQ (8 * (inv.e1 * inv.e2 + inv.e2 * inv.e3 + inv.e3 * inv.e1)) =
      (8 : Cplx) *
      (Cplx.ofQ inv.e1 * Cplx.ofQ inv.e2 +
       Cplx.ofQ inv.e2 * (-Cplx.ofQ inv.e1 - Cplx.ofQ inv.e2) +
       (-Cplx.ofQ inv.e1 - Cplx.ofQ inv.e2) * Cplx.ofQ inv.e1) := by
    rw [Cplx.ofQ_mul, ofQ_ofNat, Cplx.ofQ_add, Cplx.ofQ_add, Cplx.ofQ_mul,
      Cplx.ofQ_mul, Cplx.ofQ_mul, h3]
  have hk : Cplx.ofQ (-2 * sqrtA ^ 3) = -(2 : Cplx) * Cplx.ofQ sqrtA ^ 3 := by
    rw [Cplx.ofQ_mul, Cplx.ofQ_neg, ofQ_ofNat, Cplx.ofQ_pow]
  have hsne : Jacobi.snComplex J kPrime (Cplx.smulQ sqrtA z) inv.m ≠ 0 := by
    intro h0
    apply hpole
    rw [h0]
    simp only [Cplx.absSq, Cplx.zero_re, Cplx.zero_im]
    norm_num
  have hwp := wp_no_perturb J kPrime inv sqrtA z hpole
  have hwpp := wpPrime_no_perturb J kPrime inv sqrtA z hpole
  simp only [Weierstrass.verifyDifferentialEquation]
  rw [hwp, hwpp, Cplx.smulQ_eq_ofQ_mul (4 : ℚ), Cplx.smulQ_eq_ofQ_mul inv.g2,
    Cplx.smulQ_eq_ofQ_mul (8 * (inv.e1 * inv.e2 + inv.e2 * inv.e3 + inv.e3 * inv.e1)),
    hk, ofQ_ofNat, hG2, hG3, h8, h3, hA]
  exact residual_key (Cplx.ofQ inv.e1) (Cplx.ofQ inv.e2) (Cplx.ofQ inv.m)
    (Cplx.ofQ sqrtA) (Jacobi.snComplex J kPrime (Cplx.smulQ sqrtA z) inv.m)
    (Jacobi.cnComplex J kPrime (Cplx.smulQ sqrtA z) inv.m)
    (Jacobi.dnComplex J kPrime (Cplx.smulQ sqrtA z) inv.m)
    hsne hM' hSA' hid1 hid2

theorem verifyDifferentialEquation_residual_eq_witness :
    sampleInv.e1 + sampleInv.e2 + sampleInv.e3 = 0 ∧
    (1 : ℚ) ^ 2 = sampleInv.e1 - sampleInv.e3 ∧
    Weierstrass.verifyDifferentialEquation J1 0 sampleInv 1 ⟨1/2, 0⟩ =
      Cplx.smulQ (8 * (sampleInv.e1 * sampleInv.e2 + sampleInv.e2 * sampleInv.e3 +
        sampleInv.e3 * sampleInv.e1)) (Weierstrass.wp J1 0 sampleInv 1 ⟨1/2, 0⟩) ∧
    ¬ ((Weierstrass.verifyDifferentialEquation J1 0 sampleInv 1 ⟨1/2, 0⟩).absSq <
      (1e-8 : ℚ) ^ 2) := by
  have hm1 : sampleInv.m = 1 := by norm_num [sampleInv, Weierstrass.computeInvariants]
  have hS : Jacobi.snComplex J1 0 (Cplx.smulQ 1 ⟨1/2, 0⟩) sampleInv.m =
      ⟨4/5, 0⟩ := by
    rw [hm1]
    norm_num [Jacobi.snComplex, Cplx.smulQ, J1, Cplx.mk.injEq]
  have hC : Jacobi.cnComplex J1 0 (Cplx.smulQ 1 ⟨1/2, 0⟩) sampleInv.m =
      ⟨3/5, 0⟩ := by
    rw [hm1]
    norm_num [Jacobi.cnComplex, Cplx.smulQ, J1, Cplx.mk.injEq]
  have hD : Jacobi.dnComplex J1 0 (Cplx.smulQ 1 ⟨1/2, 0⟩) sampleInv.m =
      ⟨3/5, 0⟩ := by
    rw [hm1]
    norm_num [Jacobi.dnComplex, Cplx.smulQ, J1, Cplx.mk.injEq]
  have hpole : ¬ (Jacobi.snComplex J1 0 (Cplx.smulQ 1 ⟨1/2, 0⟩) sampleInv.m).absSq <
      (1e-12 : ℚ) ^ 2 := by
    rw [hS]
    norm_num [Cplx.absSq]
  have hid1 : Jacobi.snComplex J1 0 (Cplx.smulQ 1 ⟨1/2, 0⟩) sampleInv.m *
        Jacobi.snComplex J1 0 (Cplx.smulQ 1 ⟨1/2, 0⟩) sampleInv.m +
      Jacobi.cnComplex J1 0 (Cplx.smulQ 1 ⟨1/2, 0⟩) sampleInv.m *
        Jacobi.cnComplex J1 0 (Cplx.smulQ 1 ⟨1/2, 0⟩) sampleInv.m = 1 := by
    rw [hS, hC]
    apply Cplx.ext <;> norm_num
  have hid2 : Jacobi.dnComplex J1 0 (Cplx.smulQ 1 ⟨1/2, 0⟩) sampleInv.m *
        Jacobi.dnComplex J1 0 (Cplx.smulQ 1 ⟨1/2, 0⟩) sampleInv.m +
      Cplx.ofQ sampleInv.m * (Jacobi.snComplex J1 0 (Cplx.smulQ 1 ⟨1/2, 0⟩) sampleInv.m *
        Jacobi.snComplex J1 0 (Cplx.smulQ 1 ⟨1/2, 0⟩) sampleInv.m) = 1 := by
    rw [hS, hD, hm1]
    apply Cplx.ext <;> norm_num [Cplx.ofQ]
  have hmain := verifyDifferentialEquation_residual_eq J1 0 sampleInv 1 ⟨1/2, 0⟩
    (by norm_num [sampleInv, Weierstrass.computeInvariants])
    (by norm_num [sampleInv, Weierstrass.computeInvariants])
    (by norm_num [sampleInv, Weierstrass.computeInvariants])
    (by norm_num [sampleInv, Weierstrass.computeInvariants])
    (by norm_num [sampleInv, Weierstrass.computeInvariants])
    hid1 hid2 hpole
  have hwpval : Weierstrass.wp J1 0 sampleInv 1 ⟨1/2, 0⟩ = ⟨43/48, 0⟩ := by
    rw [wp_no_perturb J1 0 sampleInv 1 ⟨1/2, 0⟩ hpole, hS]
    apply Cplx.ext <;>
      norm_num [sampleInv, Weierstrass.computeInvariants, Cplx.ofQ, div_eq_mul_inv]
  have hval : Weierstrass.verifyDifferentialEquation J1 0 sampleInv 1 ⟨1/2, 0⟩ =
      ⟨-(43/18), 0⟩ := by
    rw [hmain, hwpval]
    apply Cplx.ext <;>
      norm_num [sampleInv, Weierstrass.computeInvariants, Cplx.smulQ]
  refine ⟨by norm_num [sampleInv, Weierstrass.computeInvariants],
    by norm_num [sampleInv, Weierstrass.computeInvariants], hmain, ?_⟩
  rw [hval]
  norm_num [Cplx.absSq]
